import Mathlib

/-!
# Verification of `resampling.py`

A shallow embedding of the flux-conserving resampling and coaddition code in
`src/resampling.py`, together with proofs of the specification's claims about it.

Coordinate grids (numpy 1-d arrays) are embedded as a length `n : ℕ` together with
a function `ℕ → ℚ` giving the array entries (all grid arithmetic in the source is
exact rational arithmetic except for the Gaussian CDF table, which is embedded
over `ℝ`).  Sparse matrices built in coordinate (COO) form are embedded as lists
of `(row, col, value)` entries, and the resulting operators as functions
`ℕ → ℕ → ℚ` that sum all entries at a position (COO duplicate entries add up).
-/

namespace Resampling

/-- A length-`n` array is strictly increasing (the "monotonically increasing
sequence" precondition of the source, which is assumed, not checked). -/
def StrIncrOn (c : ℕ → ℚ) (n : ℕ) : Prop :=
  ∀ i < n - 1, c i < c (i + 1)

instance (c : ℕ → ℚ) (n : ℕ) : Decidable (StrIncrOn c n) :=
  inferInstanceAs (Decidable (∀ i < n - 1, c i < c (i + 1)))

/-- `centers_to_bins` (source lines 11-18), as a function on array indices
`0..n`.  `bins[1:-1]` are midpoints of adjacent centers, `bins[0]` mirrors the
first midpoint about the first center, `bins[-1]` extrapolates half the last
spacing.  For `n = 0` the source returns an empty array (the `i ≥ n + 1` and
`n = 1` cases are out of range / raise `IndexError` in the source; they are
given junk values here and are never used under the claims' preconditions). -/
def centersToBins (n : ℕ) (c : ℕ → ℚ) (i : ℕ) : ℚ :=
  if n = 0 then 0
  else if i = 0 then c 0 - ((1/2) * (c 0 + c 1) - c 0)
  else if i = n then c (n - 1) + (1/2) * (c (n - 1) - c (n - 2))
  else if i ≤ n - 1 then (1/2) * (c (i - 1) + c i)
  else 0

/-- `centers_to_bins` packaged on lists (the array-of-`N+1`-edges view used by
claim C7; `centersToBins` is the index-level form). -/
def centers_to_bins (c : List ℚ) : List ℚ :=
  if c.length = 0 then []
  else (List.range (c.length + 1)).map (centersToBins c.length (fun i => c.getD i 0))

/-- Cumulative integral of the box density of input pixel `i`
(`Box_Density.get_density_integral`, source lines 107-114): ramps linearly from
0 to 1 across the pixel's bin. -/
def boxF (bins : ℕ → ℚ) (i : ℕ) (coord : ℚ) : ℚ :=
  let clb := bins i
  let cub := bins (i + 1)
  if clb > coord then 0
  else if cub < coord then 1
  else (coord - clb) / (cub - clb)

/-- The pixel-density interface (`Density` and its subclasses): a cumulative
integral `F index coord` (`get_density_integral`) and a support range
`rng index` (`get_coordinate_density_range`). -/
structure DensityM where
  F : ℕ → ℚ → ℚ
  rng : ℕ → ℚ × ℚ

/-- `Density.integrate` (source lines 41-44). -/
def DensityM.integrate (d : DensityM) (index : ℕ) (lb ub : ℚ) : ℚ :=
  d.F index ub - d.F index lb

/-- `Box_Density(coord_centers)` (source lines 102-117). -/
def boxDensity (n : ℕ) (c : ℕ → ℚ) : DensityM :=
  { F := boxF (centersToBins n c)
    rng := fun i => (centersToBins n c i, centersToBins n c (i + 1)) }

/-! ## `map_indicies` (source lines 119-153)

The source uses `scipy.interpolate.interp1d(target, arange(len(target)),
bounds_error=False)`, an external primitive: piecewise-linear interpolation of
index against coordinate, returning NaN outside `[target[0], target[-1]]`.
It is embedded as `interp1dIndexNan`, with NaN as `Option.none`. -/

/-- Linear search for the first segment `[t j, t (j+1)]` containing `q`,
scanning `segs` segments starting at segment `j`.  Models the external
`interp1d` evaluation of index-versus-coordinate for a monotonic target. -/
def interpSearch (t : ℕ → ℚ) (q : ℚ) : ℕ → ℕ → Option ℚ
  | _, 0 => none
  | j, segs + 1 =>
    if t j ≤ q ∧ q ≤ t (j + 1) then some (j + (q - t j) / (t (j + 1) - t j))
    else interpSearch t q (j + 1) segs

/-- `interp1d(target_coordinates, arange(n), bounds_error=False)` applied to one
query: linear interpolation inside `[t 0, t (n-1)]`, `none` (NaN) outside. -/
def interp1dIndexNan (n : ℕ) (t : ℕ → ℚ) (q : ℚ) : Option ℚ :=
  interpSearch t q 0 (n - 1)

/-- `map_indicies` on a single query coordinate: interior queries interpolate,
queries at-or-below `target[0]` (resp. at-or-above `target[-1]`) whose
interpolation is NaN use linear extrapolation with the boundary slope.  For a
strictly increasing target the final fallback `0` is unreachable (in the source
a NaN would remain there). -/
def mapIndex (n : ℕ) (t : ℕ → ℚ) (q : ℚ) : ℚ :=
  match interp1dIndexNan n t q with
  | some v => v
  | none =>
    if q ≤ t 0 then (1 / (t 1 - t 0)) * (q - t 0)
    else if q ≥ t (n - 1) then (1 / (t (n - 1) - t (n - 2))) * (q - t (n - 1)) + n - 1
    else 0

/-- `map_indicies` on a list of input coordinates (source signature). -/
def map_indicies (input_coordinates : List ℚ) (n : ℕ) (t : ℕ → ℚ) : List ℚ :=
  input_coordinates.map (mapIndex n t)

/-- `np.around`: round to nearest integer, ties to even. -/
def roundHalfEven (q : ℚ) : ℤ :=
  let f := ⌊q⌋
  let r := q - f
  if r < 1/2 then f
  else if 1/2 < r then f + 1
  else if Even f then f else f + 1

/-! ## `get_resampling_matrix` (source lines 155-257) -/

/-- `central_index_vals` (source line 177): the continuous index of each output
center on the input grid, rounded to the nearest integer. -/
def centralIndex (nIn : ℕ) (inC outC : ℕ → ℚ) (i : ℕ) : ℤ :=
  roundHalfEven (mapIndex nIn inC (outC i))

/-- `available_idxs` (source lines 178-179): `central_index_vals` clipped into
`[0, nIn - 1]` by the two `np.where` passes. -/
def availIndex (nIn : ℕ) (inC outC : ℕ → ℚ) (i : ℕ) : ℕ :=
  let cv := centralIndex nIn inC outC i
  if cv < 0 then 0 else if cv < (nIn : ℤ) then cv.toNat else nIn - 1

/-- numpy integer indexing: a negative index wraps around from the end (indices
below `-n` raise `IndexError` in the source; here they yield junk index 0). -/
def pyIndex (n : ℕ) (k : ℤ) : ℕ :=
  if 0 ≤ k then k.toNat else (k + n).toNat

/-- The above-diagonal walk of the matrix builder (source lines 198-212):
starting at `central + 1`, add an entry for every in-range input pixel and stop
after the first one whose center exceeds `cInUb`, or upon leaving the input
index range.  The `fuel` argument bounds the recursion; callers pass
`(nIn - central).toNat`, which is enough for the walk to reach its natural
stopping point (the source `while True` loop always terminates this way). -/
def walkUp (d : DensityM) (inC : ℕ → ℚ) (nIn : ℕ) (lb ub cInUb : ℚ) :
    ℤ → ℕ → List (ℕ × ℚ)
  | _, 0 => []
  | cIn, fuel + 1 =>
    if 0 ≤ cIn then
      if cIn < (nIn : ℤ) then
        (cIn.toNat, d.integrate cIn.toNat lb ub) ::
          (if inC cIn.toNat > cInUb then [] else walkUp d inC nIn lb ub cInUb (cIn + 1) fuel)
      else []
    else walkUp d inC nIn lb ub cInUb (cIn + 1) fuel

/-- The below-diagonal walk (source lines 213-227), mirror image of `walkUp`:
descend from `central - 1` and stop after the first in-range pixel whose center
is below `cInLb`, or upon reaching index `-1`.  Callers pass fuel
`(central + 1).toNat`. -/
def walkDown (d : DensityM) (inC : ℕ → ℚ) (nIn : ℕ) (lb ub cInLb : ℚ) :
    ℤ → ℕ → List (ℕ × ℚ)
  | _, 0 => []
  | cIn, fuel + 1 =>
    if cIn < (nIn : ℤ) then
      if 0 ≤ cIn then
        (cIn.toNat, d.integrate cIn.toNat lb ub) ::
          (if inC cIn.toNat < cInLb then [] else walkDown d inC nIn lb ub cInLb (cIn - 1) fuel)
      else []
    else walkDown d inC nIn lb ub cInLb (cIn - 1) fuel

/-- The `(col, value)` COO entries generated for output row `i` by one pass of
the main loop (source lines 180-227): the diagonal entry when the central index
is in range, otherwise the row is dropped (`continue`) when even the nearest
input pixel's sharp bin bounds do not overlap the output bin; then the two
outward walks. -/
def rowEntries (d : DensityM) (nIn : ℕ) (inC : ℕ → ℚ) (nOut : ℕ) (outC : ℕ → ℚ)
    (i : ℕ) : List (ℕ × ℚ) :=
  let inBins := centersToBins nIn inC
  let outBins := centersToBins nOut outC
  let avail := availIndex nIn inC outC
  let cIdx := centralIndex nIn inC outC i
  let lb := outBins i
  let ub := outBins (i + 1)
  let cInLb := (d.rng (avail (i - 1))).1
  let cInUb := (d.rng (avail (min (nOut - 1) (i + 1)))).2
  let keepRow : Bool :=
    if 0 ≤ cIdx ∧ cIdx < (nIn : ℤ) then true
    else
      let sharpUb := inBins (avail (min (nOut - 1) (i + 1)) + 1)
      let sharpLb := inBins (avail (i - 1))
      if lb > sharpUb ∨ ub < sharpLb then false else true
  let diag : List (ℕ × ℚ) :=
    if 0 ≤ cIdx ∧ cIdx < (nIn : ℤ) then [(cIdx.toNat, d.integrate cIdx.toNat lb ub)] else []
  if keepRow then
    diag ++ walkUp d inC nIn lb ub cInUb (cIdx + 1) ((nIn : ℤ) - cIdx).toNat
      ++ walkDown d inC nIn lb ub cInLb (cIdx - 1) (cIdx + 1).toNat
  else []

/-- Value of a COO entry list at position `(·, j)`: duplicate entries add
(`scipy.sparse.coo_matrix` semantics). -/
def entrySum (l : List (ℕ × ℚ)) (j : ℕ) : ℚ :=
  ((l.filter (fun e => e.1 == j)).map (fun e => e.2)).sum

/-- The unrescaled resampling matrix `trans` (source line 230) as an entrywise
function; rows at-or-beyond `nOut` do not exist and are 0. -/
def resamplePre (d : DensityM) (nIn : ℕ) (inC : ℕ → ℚ) (nOut : ℕ) (outC : ℕ → ℚ)
    (i j : ℕ) : ℚ :=
  if i < nOut then entrySum (rowEntries d nIn inC nOut outC i) j else 0

/-- `row_sum = trans*np.ones(n_in)` (source line 232): the sum of all COO
values in a row. -/
def rowSumPre (d : DensityM) (nIn : ℕ) (inC : ℕ → ℚ) (nOut : ℕ) (outC : ℕ → ℚ)
    (i : ℕ) : ℚ :=
  if i < nOut then ((rowEntries d nIn inC nOut outC i).map (fun e => e.2)).sum else 0

/-- The `while center_delta < width_delta` search for `nz_delta` (source lines
243-249), with the `try/except IndexError` modelled by the explicit bounds
check.  Fuel `nOut + 1` suffices since `nz_delta` increases past `nOut` never. -/
def upWhile (outC : ℕ → ℚ) (nOut first : ℕ) (width : ℚ) : ℕ → ℚ → ℕ → ℕ
  | nzd, _, 0 => nzd
  | nzd, cd, fuel + 1 =>
    if cd < width then
      if first + nzd + 1 < nOut then
        upWhile outC nOut first width (nzd + 1) |outC (first + nzd + 1) - outC first| fuel
      else nzd
    else nzd

/-- One iteration of the edge-upweighting rescale assignment (source lines
250-252): write `row_sum[first+nz_delta]/row_sum[first+nzd]` at `first + nzd`
and `row_sum[last-nz_delta]/row_sum[last-nzd]` at `last - nzd` (the second
write wins where the two indices collide).  Negative numpy indices
(`last_nz - nzd` may be negative) wrap via `pyIndex`. -/
def upAssign (rowSum : ℕ → ℚ) (nOut first last nzd : ℕ) (acc : ℕ → ℚ) (k : ℕ) :
    ℕ → ℚ :=
  fun i =>
    if i = pyIndex nOut ((last : ℤ) - k) then
      rowSum (pyIndex nOut ((last : ℤ) - nzd)) / rowSum (pyIndex nOut ((last : ℤ) - k))
    else if i = first + k then rowSum (first + nzd) / rowSum (first + k)
    else acc i

/-- The `upweight_ends` row-rescale vector (source lines 234-252): among rows
with nonzero row sum, the leading and trailing `nz_delta + 1` rows are rescaled
to the row sum of the row just past the run. -/
def upRescale (d : DensityM) (nIn : ℕ) (inC : ℕ → ℚ) (nOut : ℕ) (outC : ℕ → ℚ) :
    ℕ → ℚ :=
  let rowSum := rowSumPre d nIn inC nOut outC
  let nz := (List.range nOut).filter (fun i => rowSum i != 0)
  if 3 < nz.length then
    let first := nz.headD 0
    let last := nz.getLastD 0
    let cc := d.rng (availIndex nIn inC outC first)
    let width := cc.2 - cc.1
    let nzd := upWhile outC nOut first width 1 |outC (first + 1) - outC first| (nOut + 1)
    (List.range (nzd + 1)).foldl (upAssign rowSum nOut first last nzd) (fun _ => 1)
  else fun _ => 1

/-- The `preserve_normalization` row-rescale vector (source lines 253-254):
`1 / row_sum` on rows with positive row sum, `1` elsewhere. -/
def normRescale (d : DensityM) (nIn : ℕ) (inC : ℕ → ℚ) (nOut : ℕ) (outC : ℕ → ℚ)
    (i : ℕ) : ℚ :=
  1 / (if 0 < rowSumPre d nIn inC nOut outC i then rowSumPre d nIn inC nOut outC i else 1)

/-- `get_resampling_matrix` (source lines 155-257).  `pixel_density = none`
defaults to the box density over the input centers; the final matrix is the
diagonal rescale (normalization overriding edge upweighting, source lines
234-256) times the raw COO matrix. -/
def get_resampling_matrix (nIn : ℕ) (inC : ℕ → ℚ) (nOut : ℕ) (outC : ℕ → ℚ)
    (pixel_density : Option DensityM) (preserve_normalization upweight_ends : Bool) :
    ℕ → ℕ → ℚ :=
  let d := pixel_density.getD (boxDensity nIn inC)
  let rescale : ℕ → ℚ :=
    if preserve_normalization then normRescale d nIn inC nOut outC
    else if upweight_ends then upRescale d nIn inC nOut outC
    else fun _ => 1
  fun i j => rescale i * resamplePre d nIn inC nOut outC i j

/-! ## `get_transformed_covariances` (source lines 259-273) and `simple_coadd`
(source lines 297-312) -/

/-- The source accepts either a full covariance matrix (2-d array) or a
variance vector (1-d array). -/
inductive CovIn where
  | vec : (ℕ → ℚ) → CovIn
  | mat : (ℕ → ℕ → ℚ) → CovIn

/-- The 1-d branch wraps the variance vector as a diagonal matrix
(`scipy.sparse.dia_matrix((input_covariance, 0), (ndat, ndat))`). -/
def covAsMatrix (nIn : ℕ) : CovIn → (ℕ → ℕ → ℚ)
  | .vec v => fun k l => if k = l ∧ k < nIn then v k else 0
  | .mat m => m

/-- Row-i of `T·v` for an `nOut × nIn` operator stored as a function
(`transform_matrix * vector`). -/
def matVec (nIn : ℕ) (T : ℕ → ℕ → ℚ) (v : ℕ → ℚ) (i : ℕ) : ℚ :=
  ∑ j ∈ Finset.range nIn, T i j * v j

/-- `get_transformed_covariances` (source lines 259-273):
`T · Cov · Tᵗ`, then exactly-zero diagonal entries are replaced by
`fill_variance` when that is nonzero. -/
def get_transformed_covariances (nOut nIn : ℕ) (T : ℕ → ℕ → ℚ) (cov : CovIn)
    (fill_variance : ℚ) : ℕ → ℕ → ℚ :=
  let ccov := covAsMatrix nIn cov
  let outv : ℕ → ℕ → ℚ := fun i j =>
    ∑ k ∈ Finset.range nIn, ∑ l ∈ Finset.range nIn, T i k * ccov k l * T j l
  if fill_variance ≠ 0 then
    fun i j => if i = j ∧ i < nOut ∧ outv i i = 0 then fill_variance else outv i j
  else outv

/-- One spectral order: its grid, flux and covariance (`data_wvs[k]`,
`data_flux[k]`, `data_covar[k]`). -/
structure OrderDat where
  n : ℕ
  wvs : ℕ → ℚ
  flux : ℕ → ℚ
  covar : CovIn

/-- The three accumulators of `simple_coadd` (source lines 299-310) after all
orders are folded in: `(output_flux, one_trans, output_covar)`.  The first
order uses the default flags (`preserve_normalization=False`,
`upweight_ends=True`); subsequent orders pass `preserve_normalization=True`. -/
def simpleCoaddAcc (o0 : OrderDat) (rest : List OrderDat) (nOut : ℕ) (outC : ℕ → ℚ) :
    (ℕ → ℚ) × (ℕ → ℚ) × (ℕ → ℕ → ℚ) :=
  let T0 := get_resampling_matrix o0.n o0.wvs nOut outC none false true
  let init : (ℕ → ℚ) × (ℕ → ℚ) × (ℕ → ℕ → ℚ) :=
    (matVec o0.n T0 o0.flux, matVec o0.n T0 (fun _ => 1),
     get_transformed_covariances nOut o0.n T0 o0.covar 0)
  rest.foldl
    (fun a o =>
      let T := get_resampling_matrix o.n o.wvs nOut outC none true true
      (fun i => a.1 i + matVec o.n T o.flux i,
       fun i => a.2.1 i + matVec o.n T (fun _ => 1) i,
       fun i j => a.2.2 i j + get_transformed_covariances nOut o.n T o.covar 0 i j))
    init

/-- `simple_coadd` (source lines 297-312): accumulate transformed flux,
coverage (`one_trans`) and covariance over the orders, then divide flux by
coverage with the `one_trans + (one_trans == 0)` zero guard.  An empty order
list raises `IndexError` in the source; here it returns zeros. -/
def simple_coadd (orders : List OrderDat) (nOut : ℕ) (outC : ℕ → ℚ) :
    (ℕ → ℚ) × (ℕ → ℕ → ℚ) :=
  match orders with
  | [] => (fun _ => 0, fun _ _ => 0)
  | o0 :: rest =>
    let acc := simpleCoaddAcc o0 rest nOut outC
    (fun i => acc.1 i / (acc.2.1 i + (if acc.2.1 i = 0 then 1 else 0)), acc.2.2)

/-! ## `get_curvature_matrix` (source lines 314-320) -/

/-- `get_curvature_matrix(npts)`: a tridiagonal second-difference penalty in
`scipy.sparse.dia_matrix` convention (`M[i, i+k] = data[k][i+k]`): sub- and
super-diagonal `0.5` with `data[0][-2] = data[2][1] = 1.0`, main diagonal
`-1`.  (`npts ≤ 1` raises `IndexError` in the source.) -/
def get_curvature_matrix (npts : ℕ) (i j : ℕ) : ℚ :=
  if i < npts ∧ j < npts then
    if j + 1 = i then (if j = npts - 2 then 1 else 1/2)
    else if j = i then -1
    else if j = i + 1 then (if j = 1 then 1 else 1/2)
    else 0
  else 0

/-! ## The Gaussian CDF table (source lines 20-36) and `Gaussian_Density`
(source lines 47-60)

The table values `cdf_vals = scipy.stats.norm.cdf(z_scores)` come from an
external numerical primitive; they are embedded as the exact standard normal
CDF at the exact rational grid points `z_scores = np.linspace(-6, 6, 1024)`.
These definitions are necessarily noncomputable (they involve a real
integral); every concrete fact proved about them goes through interval
reasoning rather than evaluation. -/

/-- The standard normal CDF `Φ`, as the integral of the standard normal
density over `(-∞, x]` (the meaning of `scipy.stats.norm.cdf`). -/
noncomputable def stdGaussCDF (x : ℝ) : ℝ :=
  ∫ t in Set.Iic x, ProbabilityTheory.gaussianPDFReal 0 1 t

/-- `z_scores = np.linspace(-6, 6, n_delts)` with `n_delts = 1024`
(source lines 20-21): `z_i = -6 + 12·i/1023`. -/
def zScores (i : ℕ) : ℚ :=
  -6 + 12 * i / 1023

/-- `cdf_vals = scipy.stats.norm.cdf(z_scores)` (source line 22). -/
noncomputable def cdf_vals (i : ℕ) : ℝ :=
  stdGaussCDF (zScores i)

/-- `z_delta = z_scores[1] - z_scores[0]` (source line 25). -/
def zDelta : ℚ := 12 / 1023

/-- `approximate_gaussian_cdf` (source lines 28-36): clip to `1.0` above
`max_z - z_delta - 1e-5`, to `0` below `min_z = -6`, otherwise linearly
interpolate between the two bracketing table entries. -/
noncomputable def approximate_gaussian_cdf (zscore : ℚ) : ℝ :=
  if zscore > 6 - zDelta - 1/100000 then 1
  else if zscore < -6 then 0
  else
    let idxVal := (zscore - (-6)) / zDelta
    let baseIdx := ⌊idxVal⌋.toNat
    let alpha := idxVal - baseIdx
    cdf_vals baseIdx * (1 - (alpha : ℝ)) + cdf_vals (baseIdx + 1) * (alpha : ℝ)

/-- `Gaussian_Density.get_density_integral` (source lines 53-55): the table
CDF evaluated at the z-score of `coord` for pixel `index`. -/
noncomputable def gaussianDensityIntegral (centers widths : ℕ → ℚ) (index : ℕ)
    (coord : ℚ) : ℝ :=
  approximate_gaussian_cdf ((coord - centers index) / widths index)

/-- Modelled from the spec: the claimed behaviour of the table CDF
("linear interpolation between adjacent table entries for every z inside
[-6, 6], clipped to exactly 0 for z below -6 and exactly 1 for z above 6"),
for comparison against `approximate_gaussian_cdf`. -/
noncomputable def gaussSpecF (zscore : ℚ) : ℝ :=
  if zscore < -6 then 0
  else if zscore > 6 then 1
  else
    let idxVal := (zscore - (-6)) / zDelta
    let baseIdx := ⌊idxVal⌋.toNat
    let alpha := idxVal - baseIdx
    cdf_vals baseIdx * (1 - (alpha : ℝ)) + cdf_vals (baseIdx + 1) * (alpha : ℝ)

/-! ## The Bolton-Schlegel diagonalization step (source lines 349-353)

`eigen_vals, eigen_vecs = np.linalg.eigh(lhs_mat.todense())` is an external
primitive (symmetric eigendecomposition, ascending eigenvalues, orthonormal
column eigenvectors); the step is embedded as a function of its output.  The
standalone `Bolton_Schlegel_Diagonalization` (source lines 275-285) contains
the same computation but crashes on every call — see claim C5. -/

/-- `rotmat_no_norm = np.dot(eigen_vecs*eval_sqrt, eigen_vecs.transpose())`:
`eigen_vecs * eval_sqrt` scales column `k` by `sqrt(eigen_vals[k])`. -/
noncomputable def bsRotNoNorm (n : ℕ) (evecs : Matrix (Fin n) (Fin n) ℝ)
    (evals : Fin n → ℝ) : Matrix (Fin n) (Fin n) ℝ :=
  fun i j => ∑ k, evecs i k * Real.sqrt (evals k) * evecs j k

/-- `rot_norm = np.dot(rotmat_no_norm, np.ones(...))`: the row sums. -/
noncomputable def bsRotNorm (n : ℕ) (evecs : Matrix (Fin n) (Fin n) ℝ)
    (evals : Fin n → ℝ) : Fin n → ℝ :=
  fun i => ∑ j, bsRotNoNorm n evecs evals i j

/-- `rotmat = rotmat_no_norm/rot_norm`: numpy broadcasting divides entry
`(i, j)` by `rot_norm[j]` (the trailing axis), not by `rot_norm[i]`. -/
noncomputable def bsRotmat (n : ℕ) (evecs : Matrix (Fin n) (Fin n) ℝ)
    (evals : Fin n → ℝ) : Matrix (Fin n) (Fin n) ℝ :=
  fun i j => bsRotNoNorm n evecs evals i j / bsRotNorm n evecs evals j

/-! ## `coadd_data_broken` (source lines 412-488)

The external solver (`scipy.sparse.linalg.lsqr`) and pseudo-inverse
(`np.linalg.pinv`) are supplied as oracle parameters (`lsqrO`, `pinvO`); all
in-repository logic (blocking, masking, the model matrix, the per-order
transforms and covariances, the block-diagonal inverse covariance, the
apodized stitching and the guarded final division) is embedded directly.
Exceptions the block loop itself can raise are embedded as `Except.error`:
an out-of-range scalar read (`IndexError`), a per-order flux/variance array
whose length differs from its wavelength array (`IndexError` from integer or
boolean-mask indexing), a block grid of length 1 (`IndexError` inside
`centers_to_bins`, source line 17), a block shorter than `block_size`
(`ValueError` at the `concat_data[lb:ub] = c_data[..]` assignment, source
line 475), and `block_overlap = 0` on the solve branch (`ValueError` at the
zero-length `output_alpha[-0:]` assignment, source line 481). -/

/-- numpy scalar indexing of a list: negative indices wrap, and an index
outside `[-len, len)` raises `IndexError` (modelled as `none`). -/
def pyGetL (l : List ℚ) (k : ℤ) : Option ℚ :=
  if -(l.length : ℤ) ≤ k ∧ k < (l.length : ℤ) then some (l.getD (pyIndex l.length k) 0)
  else none

/-- numpy/python slice `l[lo:hi]` with possibly negative bounds. -/
def pySlice (l : List ℚ) (lo hi : ℤ) : List ℚ :=
  let n := l.length
  let lo2 : ℕ := min (Int.toNat (if lo < 0 then lo + n else lo)) n
  let hi2 : ℕ := min (Int.toNat (if hi < 0 then hi + n else hi)) n
  (List.range (hi2 - lo2)).map (fun k => l.getD (lo2 + k) 0)

/-- Boolean-mask indexing `a[mask]`. -/
def applyMask (l : List ℚ) (m : List Bool) : List ℚ :=
  (l.zip m).filterMap (fun p => if p.2 then some p.1 else none)

/-- `np.linspace(a, b, k)` entry `j`. -/
def linspace (a b : ℚ) (k : ℕ) (j : ℕ) : ℚ :=
  if k = 1 then a else a + (b - a) * j / ((k : ℚ) - 1)

/-- The squared-ramp apodization weights (source lines 479-482): ones, with
`linspace(0,1,ov)` written over the first `ov` slots and `linspace(1,0,ov)`
written over the last `ov` slots (the second write wins on overlap), then
squared.  (`ov = 0` raises a shape error in the source; here the writes are
empty.) -/
def apodAlpha (bs ov : ℕ) (i : ℕ) : ℚ :=
  (if bs - ov ≤ i ∧ 1 ≤ ov then linspace 1 0 ov (i - (bs - ov))
   else if i < ov then linspace 0 1 ov i
   else 1) ^ 2

/-- The inputs and external collaborators of `coadd_data_broken`. -/
structure BrokenCtx where
  pinvO : ℕ → (ℕ → ℕ → ℚ) → (ℕ → ℕ → ℚ)
  lsqrO : ℕ → (ℕ → ℕ → ℚ) → (ℕ → ℚ) → ℚ → (ℕ → ℚ)
  input_wvs : List (List ℚ)
  input_fluxes : List (List ℚ)
  input_variances : List (List ℚ)
  output_wvs : List ℚ
  block_size : ℕ
  block_overlap : ℕ
  wv_overlap : ℚ
  preserve : Bool

/-- The right-hand side `model_matrix*full_inverse*concat_data` (source lines
455-477) assembled by a non-skipped block, as a function of the block bounds
and of the two wavelength reads of line 434. -/
def blockRhs (ctx : BrokenCtx) (blk : ℤ × ℤ) (wLo wHi : ℚ) : ℕ → ℚ :=
  let outWvs := ctx.output_wvs
  let minWv := wLo - ctx.wv_overlap
  let maxWv := wHi + ctx.wv_overlap
  let outBlockWvs := pySlice outWvs blk.1 blk.2
  let nb := outBlockWvs.length
  let nData := ctx.input_wvs.length
  let mask : ℕ → List Bool := fun oi =>
    (ctx.input_wvs.getD oi []).map (fun w => decide (minWv < w) && decide (w < maxWv))
  let msum : ℕ → ℕ := fun oi => ((mask oi).filter id).length
  let acIdxs := (List.range nData).filter (fun oi => 1 < msum oi)
  let nAc := acIdxs.length
  let bs := ctx.block_size
  let modelM : ℕ → ℕ → ℚ := fun r cc =>
    if r < bs ∧ cc % bs = r ∧ cc / bs < nAc then 1 else 0
  let maskedWvs : ℕ → List ℚ := fun oi => applyMask (ctx.input_wvs.getD oi []) (mask oi)
  let transform : ℕ → (ℕ → ℕ → ℚ) := fun oi =>
    get_resampling_matrix (maskedWvs oi).length (fun i => (maskedWvs oi).getD i 0)
      nb (fun i => outBlockWvs.getD i 0) none ctx.preserve true
  let cData : ℕ → (ℕ → ℚ) := fun oi =>
    let mf := applyMask (ctx.input_fluxes.getD oi []) (mask oi)
    matVec (maskedWvs oi).length (transform oi) (fun i => mf.getD i 0)
  let cVariance : ℕ → (ℕ → ℕ → ℚ) := fun oi =>
    let mv := applyMask (ctx.input_variances.getD oi []) (mask oi)
    get_transformed_covariances nb (maskedWvs oi).length (transform oi)
      (.vec (fun i => mv.getD i 0)) 0
  let cInvvar : ℕ → (ℕ → ℕ → ℚ) := fun oi =>
    let cvar := cVariance oi
    let nzIdxs := (List.range nb).filter
      (fun cc => decide (0 < ∑ r ∈ Finset.range nb, cvar r cc))
    if 0 < nzIdxs.length then
      let sub : ℕ → ℕ → ℚ := fun a b => cvar (nzIdxs.getD a 0) (nzIdxs.getD b 0)
      let invSub := ctx.pinvO nzIdxs.length sub
      fun r cc =>
        if r ∈ nzIdxs ∧ cc ∈ nzIdxs then invSub (nzIdxs.indexOf r) (nzIdxs.indexOf cc)
        else 0
    else fun _ _ => 0
  let fullInverse : ℕ → ℕ → ℚ := fun r cc =>
    if r / nb = cc / nb ∧ r / nb < nAc then cInvvar (acIdxs.getD (r / nb) 0) (r % nb) (cc % nb)
    else 0
  let concatData : ℕ → ℚ := fun k =>
    if k / bs < nAc then cData (acIdxs.getD (k / bs) 0) (k % bs) else 0
  let L := nAc * bs
  fun r =>
    ∑ k ∈ Finset.range L, ∑ l ∈ Finset.range L, modelM r k * fullInverse k l * concatData l

/-- The normal-equation matrix `model_matrix*full_inverse*model_matrix.T`
(source line 478) assembled by a non-skipped block. -/
def blockLhs (ctx : BrokenCtx) (blk : ℤ × ℤ) (wLo wHi : ℚ) : ℕ → ℕ → ℚ :=
  let outWvs := ctx.output_wvs
  let minWv := wLo - ctx.wv_overlap
  let maxWv := wHi + ctx.wv_overlap
  let outBlockWvs := pySlice outWvs blk.1 blk.2
  let nb := outBlockWvs.length
  let nData := ctx.input_wvs.length
  let mask : ℕ → List Bool := fun oi =>
    (ctx.input_wvs.getD oi []).map (fun w => decide (minWv < w) && decide (w < maxWv))
  let msum : ℕ → ℕ := fun oi => ((mask oi).filter id).length
  let acIdxs := (List.range nData).filter (fun oi => 1 < msum oi)
  let nAc := acIdxs.length
  let bs := ctx.block_size
  let modelM : ℕ → ℕ → ℚ := fun r cc =>
    if r < bs ∧ cc % bs = r ∧ cc / bs < nAc then 1 else 0
  let maskedWvs : ℕ → List ℚ := fun oi => applyMask (ctx.input_wvs.getD oi []) (mask oi)
  let transform : ℕ → (ℕ → ℕ → ℚ) := fun oi =>
    get_resampling_matrix (maskedWvs oi).length (fun i => (maskedWvs oi).getD i 0)
      nb (fun i => outBlockWvs.getD i 0) none ctx.preserve true
  let cVariance : ℕ → (ℕ → ℕ → ℚ) := fun oi =>
    let mv := applyMask (ctx.input_variances.getD oi []) (mask oi)
    get_transformed_covariances nb (maskedWvs oi).length (transform oi)
      (.vec (fun i => mv.getD i 0)) 0
  let cInvvar : ℕ → (ℕ → ℕ → ℚ) := fun oi =>
    let cvar := cVariance oi
    let nzIdxs := (List.range nb).filter
      (fun cc => decide (0 < ∑ r ∈ Finset.range nb, cvar r cc))
    if 0 < nzIdxs.length then
      let sub : ℕ → ℕ → ℚ := fun a b => cvar (nzIdxs.getD a 0) (nzIdxs.getD b 0)
      let invSub := ctx.pinvO nzIdxs.length sub
      fun r cc =>
        if r ∈ nzIdxs ∧ cc ∈ nzIdxs then invSub (nzIdxs.indexOf r) (nzIdxs.indexOf cc)
        else 0
    else fun _ _ => 0
  let fullInverse : ℕ → ℕ → ℚ := fun r cc =>
    if r / nb = cc / nb ∧ r / nb < nAc then cInvvar (acIdxs.getD (r / nb) 0) (r % nb) (cc % nb)
    else 0
  let L := nAc * bs
  fun r s =>
    ∑ k ∈ Finset.range L, ∑ l ∈ Finset.range L, modelM r k * fullInverse k l * modelM s l

/-- The apodized stitch of a solved block into the running
`(output_data, output_weight_sum)` accumulators (source lines 479-484). -/
def blockSolveUpdate (ctx : BrokenCtx) (acc : (ℕ → ℚ) × (ℕ → ℚ)) (blk : ℤ × ℤ)
    (wLo wHi : ℚ) : (ℕ → ℚ) × (ℕ → ℚ) :=
  let nOut := ctx.output_wvs.length
  let bs := ctx.block_size
  let sol := ctx.lsqrO bs (blockLhs ctx blk wLo wHi) (blockRhs ctx blk wLo wHi) (1 / 1000000)
  let lo : ℕ := min (Int.toNat (if blk.1 < 0 then blk.1 + nOut else blk.1)) nOut
  let hi : ℕ := min (Int.toNat (if blk.2 < 0 then blk.2 + nOut else blk.2)) nOut
  (fun i => if lo ≤ i ∧ i < hi then acc.1 i + apodAlpha bs ctx.block_overlap (i - lo) * sol (i - lo) else acc.1 i,
   fun i => if lo ≤ i ∧ i < hi then acc.2 i + apodAlpha bs ctx.block_overlap (i - lo) else acc.2 i)

/-- One iteration of the block loop (source lines 431-484), folding the
`(output_data, output_weight_sum)` accumulators.  Abort paths of the source
are returned as `Except.error`, in the source's evaluation order: the two
scalar reads `output_wvs[cl_idx]`, `output_wvs[cu_idx-1]` (line 434) before
the empty-mask `continue`; then, on a non-skipped block, `centers_to_bins`
on a length-1 block grid (inside `get_resampling_matrix`, line 454), the
per-order flux/variance accesses with a misaligned array (lines 455-456),
the `concat_data` slice assignment when the block grid is shorter than
`block_size` (line 475), and the zero-length `output_alpha[-0:]` write when
`block_overlap = 0` on the solve branch (line 481). -/
def processBlock (ctx : BrokenCtx) (acc : (ℕ → ℚ) × (ℕ → ℚ)) (blk : ℤ × ℤ) :
    Except String ((ℕ → ℚ) × (ℕ → ℚ)) :=
  let outWvs := ctx.output_wvs
  match pyGetL outWvs blk.1, pyGetL outWvs (blk.2 - 1) with
  | none, _ => .error "IndexError"
  | some _, none => .error "IndexError"
  | some wLo, some wHi =>
    let minWv := wLo - ctx.wv_overlap
    let maxWv := wHi + ctx.wv_overlap
    let outBlockWvs := pySlice outWvs blk.1 blk.2
    let nb := outBlockWvs.length
    let nData := ctx.input_wvs.length
    let mask : ℕ → List Bool := fun oi =>
      (ctx.input_wvs.getD oi []).map (fun w => decide (minWv < w) && decide (w < maxWv))
    let msum : ℕ → ℕ := fun oi => ((mask oi).filter id).length
    let acIdxs := (List.range nData).filter (fun oi => 1 < msum oi)
    if acIdxs = [] then .ok acc
    else if nb = 1 then .error "IndexError"
    else if ¬ (∀ oi ∈ acIdxs, oi < ctx.input_fluxes.length ∧ oi < ctx.input_variances.length ∧
        (ctx.input_fluxes.getD oi []).length = (ctx.input_wvs.getD oi []).length ∧
        (ctx.input_variances.getD oi []).length = (ctx.input_wvs.getD oi []).length) then
      .error "IndexError"
    else if nb ≠ ctx.block_size then .error "ValueError"
    else
      let rhs := blockRhs ctx blk wLo wHi
      if 1 < ((List.range ctx.block_size).filter (fun r => rhs r != 0)).length then
        if ctx.block_overlap = 0 then .error "ValueError"
        else .ok (blockSolveUpdate ctx acc blk wLo wHi)
      else .ok acc

/-- `coadd_data_broken` (source lines 412-488).  The guard at lines 417-419
rejects `block_overlap >= block_size` with an error and no output;
`block_overlap <= 2` only prints a warning (modelled as the returned warning
list).  The block loop is then run block by block; the first exception a
block raises aborts the whole call (an uncaught Python exception), otherwise
the call ends with the zero-guarded division
`output_weight_sum + (output_weight_sum <= 0)`.  Note the forced last block
`(n_out - block_size, n_out)` (line 430) is appended unconditionally, so an
output grid shorter than `block_size` makes `output_wvs[cl_idx]` at line 434
read out of range. -/
def coadd_data_broken (ctx : BrokenCtx) : Except String (List String × List ℚ) :=
  if ctx.block_size ≤ ctx.block_overlap then
    .error "coadd_error: overlap must be less than block size!"
  else
    let warns :=
      if ctx.block_overlap ≤ 2 then
        ["WARNING: block_overlap should be 3 or greater, smaller values give anomalous results"]
      else []
    let stepSize := ctx.block_size - ctx.block_overlap
    let nOut := ctx.output_wvs.length
    let nBlocks := nOut / stepSize + 1
    let blocks :=
      ((List.range (nBlocks - 1)).map
        (fun (bi : ℕ) =>
          (((stepSize * bi : ℕ) : ℤ), ((min nOut (stepSize * bi + ctx.block_size) : ℕ) : ℤ))))
      ++ [((nOut : ℤ) - ctx.block_size, (nOut : ℤ))]
    match blocks.foldlM (processBlock ctx) (fun _ => 0, fun _ => 0) with
    | .error e => .error e
    | .ok acc =>
      .ok (warns,
        (List.range nOut).map (fun i => acc.1 i / (acc.2 i + (if acc.2 i ≤ 0 then 1 else 0))))

/-! ## Basic lemmas: monotone grids, bin edges, box density -/

theorem strIncrOn_strict {c : ℕ → ℚ} {n : ℕ} (h : StrIncrOn c n) :
    ∀ i j, i < j → j < n → c i < c j := by
  intro i j hij hjn
  induction j with
  | zero => omega
  | succ m ih =>
    rcases Nat.lt_succ_iff_lt_or_eq.mp hij with h' | h'
    · exact lt_trans (ih h' (by omega)) (h m (by omega))
    · subst h'; exact h i (by omega)

theorem strIncrOn_mono {c : ℕ → ℚ} {n : ℕ} (h : StrIncrOn c n) :
    ∀ i j, i ≤ j → j < n → c i ≤ c j := by
  intro i j hij hjn
  rcases Nat.lt_or_ge i j with h' | h'
  · exact le_of_lt (strIncrOn_strict h i j h' hjn)
  · have : i = j := by omega
    subst this; rfl

theorem binsFirst {c : ℕ → ℚ} {n : ℕ} (h2 : 2 ≤ n) :
    centersToBins n c 0 = c 0 - (c 1 - c 0) / 2 := by
  unfold centersToBins
  rw [if_neg (by omega), if_pos rfl]
  ring

theorem binsLast {c : ℕ → ℚ} {n : ℕ} (h2 : 2 ≤ n) :
    centersToBins n c n = c (n - 1) + (c (n - 1) - c (n - 2)) / 2 := by
  unfold centersToBins
  rw [if_neg (by omega), if_neg (by omega), if_pos rfl]
  ring

theorem binsMid {c : ℕ → ℚ} {n i : ℕ} (h2 : 2 ≤ n) (h1 : 1 ≤ i) (hi : i ≤ n - 1) :
    centersToBins n c i = (c (i - 1) + c i) / 2 := by
  unfold centersToBins
  rw [if_neg (by omega), if_neg (by omega), if_neg (by omega), if_pos hi]
  ring

theorem bins_lt_center {c : ℕ → ℚ} {n : ℕ} (h : StrIncrOn c n) (h2 : 2 ≤ n) :
    ∀ i, i < n → centersToBins n c i < c i := by
  intro i hi
  rcases Nat.eq_zero_or_pos i with h0 | h1
  · subst h0
    rw [binsFirst h2]
    have := h 0 (by omega)
    linarith
  · rw [binsMid h2 h1 (by omega)]
    have := strIncrOn_strict h (i - 1) i (by omega) hi
    linarith

theorem center_lt_bins {c : ℕ → ℚ} {n : ℕ} (h : StrIncrOn c n) (h2 : 2 ≤ n) :
    ∀ i, i < n → c i < centersToBins n c (i + 1) := by
  intro i hi
  rcases Nat.lt_or_ge (i + 1) n with hlt | hge
  · rw [binsMid h2 (by omega) (by omega)]
    have := strIncrOn_strict h i (i + 1) (by omega) hlt
    simp only [Nat.add_sub_cancel]
    linarith
  · have hin : i = n - 1 := by omega
    have hn : i + 1 = n := by omega
    rw [hn, binsLast h2, ← hin]
    have := strIncrOn_strict h (i - 1) i (by omega) hi
    have hi2 : i - 1 = n - 2 := by omega
    rw [hi2] at this
    linarith

theorem bins_strict {c : ℕ → ℚ} {n : ℕ} (h : StrIncrOn c n) (h2 : 2 ≤ n) :
    ∀ i, i < n → centersToBins n c i < centersToBins n c (i + 1) :=
  fun i hi => lt_trans (bins_lt_center h h2 i hi) (center_lt_bins h h2 i hi)

theorem bins_mono {c : ℕ → ℚ} {n : ℕ} (h : StrIncrOn c n) (h2 : 2 ≤ n) :
    ∀ i j, i ≤ j → j ≤ n → centersToBins n c i ≤ centersToBins n c j := by
  intro i j hij hjn
  induction j with
  | zero => simp_all
  | succ m ih =>
    rcases Nat.lt_succ_iff_lt_or_eq.mp (Nat.lt_succ_of_le hij) with h' | h'
    · exact le_trans (ih (by omega) (by omega)) (le_of_lt (bins_strict h h2 m (by omega)))
    · subst h'; rfl

theorem boxF_nonneg {bins : ℕ → ℚ} {j : ℕ} (hb : bins j < bins (j + 1)) (coord : ℚ) :
    0 ≤ boxF bins j coord := by
  unfold boxF
  dsimp only
  split
  · rfl
  · split
    · norm_num
    · next h1 h2 =>
      apply div_nonneg <;> linarith

theorem boxF_le_one {bins : ℕ → ℚ} {j : ℕ} (hb : bins j < bins (j + 1)) (coord : ℚ) :
    boxF bins j coord ≤ 1 := by
  unfold boxF
  dsimp only
  split
  · norm_num
  · split
    · rfl
    · next h1 h2 =>
      rw [div_le_one (by linarith)]
      linarith

theorem boxF_eq_zero {bins : ℕ → ℚ} {j : ℕ} (hb : bins j ≤ bins (j + 1)) {coord : ℚ}
    (hc : coord ≤ bins j) : boxF bins j coord = 0 := by
  unfold boxF
  dsimp only
  split
  · rfl
  · next h1 =>
    rw [if_neg (by push_neg at h1 ⊢; linarith)]
    have : coord = bins j := le_antisymm hc (not_lt.mp h1)
    rw [this, sub_self, zero_div]

theorem boxF_eq_one {bins : ℕ → ℚ} {j : ℕ} (hb : bins j < bins (j + 1)) {coord : ℚ}
    (hc : bins (j + 1) ≤ coord) : boxF bins j coord = 1 := by
  unfold boxF
  dsimp only
  rw [if_neg (by push_neg; linarith)]
  rcases lt_or_eq_of_le hc with h' | h'
  · rw [if_pos h']
  · rw [if_neg (by push_neg; linarith), ← h', div_self (by linarith)]

theorem boxF_mono {bins : ℕ → ℚ} {j : ℕ} (hb : bins j < bins (j + 1)) {a b : ℚ}
    (hab : a ≤ b) : boxF bins j a ≤ boxF bins j b := by
  by_cases h1 : bins j > a
  · have : boxF bins j a = 0 := by unfold boxF; dsimp only; rw [if_pos h1]
    rw [this]
    exact boxF_nonneg hb b
  · by_cases h2 : bins (j + 1) < a
    · have ha : boxF bins j a = 1 := boxF_eq_one hb (le_of_lt h2)
      have hbv : boxF bins j b = 1 := boxF_eq_one hb (by linarith)
      rw [ha, hbv]
    · have ha : boxF bins j a = (a - bins j) / (bins (j + 1) - bins j) := by
        unfold boxF; dsimp only; rw [if_neg h1, if_neg h2]
      by_cases h3 : bins (j + 1) < b
      · rw [boxF_eq_one hb (le_of_lt h3), ha]
        rw [div_le_one (by linarith)]
        push_neg at h2
        linarith
      · have hbv : boxF bins j b = (b - bins j) / (bins (j + 1) - bins j) := by
          unfold boxF
          dsimp only
          rw [if_neg (by push_neg at h1 ⊢; linarith), if_neg h3]
        rw [ha, hbv, div_le_div_iff₀ (by linarith) (by linarith)]
        nlinarith

/-! ## Lemmas about `map_indicies` -/

theorem interpSearch_knot {t : ℕ → ℚ} {n : ℕ} (h : StrIncrOn t n) {i : ℕ} (hi : i < n)
    (h1 : 1 ≤ i) :
    ∀ j segs, j ≤ i - 1 → i ≤ j + segs → interpSearch t (t i) j segs = some (i : ℚ) := by
  intro j segs
  induction segs generalizing j with
  | zero => omega
  | succ m ih =>
    intro hji hbud
    rcases Nat.lt_or_ge j (i - 1) with hlt | hge
    · rw [interpSearch, if_neg]
      · exact ih (j + 1) (by omega) (by omega)
      · rintro ⟨-, hub⟩
        exact absurd hub (not_le.mpr (strIncrOn_strict h (j + 1) i (by omega) hi))
    · have hj : j = i - 1 := by omega
      subst hj
      rw [interpSearch, if_pos]
      · have hne : t i - t (i - 1) ≠ 0 :=
          ne_of_gt (sub_pos.mpr (strIncrOn_strict h (i - 1) i (by omega) hi))
        have : (i - 1 : ℕ) + 1 = i := by omega
        rw [this, div_self hne]
        congr 1
        push_cast [Nat.cast_sub h1]
        ring
      · have : (i - 1 : ℕ) + 1 = i := by omega
        rw [this]
        exact ⟨le_of_lt (strIncrOn_strict h (i - 1) i (by omega) hi), le_refl _⟩

theorem interp1dIndexNan_self {t : ℕ → ℚ} {n : ℕ} (h : StrIncrOn t n) (h2 : 2 ≤ n)
    {i : ℕ} (hi : i < n) : interp1dIndexNan n t (t i) = some (i : ℚ) := by
  unfold interp1dIndexNan
  rcases Nat.eq_zero_or_pos i with h0 | h1
  · subst h0
    have hn : n - 1 = (n - 2) + 1 := by omega
    rw [hn, interpSearch, if_pos ⟨le_refl _, le_of_lt (h 0 (by omega))⟩]
    simp
  · exact interpSearch_knot h hi h1 0 (n - 1) (by omega) (by omega)

theorem mapIndex_self {t : ℕ → ℚ} {n : ℕ} (h : StrIncrOn t n) (h2 : 2 ≤ n)
    {i : ℕ} (hi : i < n) : mapIndex n t (t i) = i := by
  unfold mapIndex
  rw [interp1dIndexNan_self h h2 hi]

theorem interpSearch_below {t : ℕ → ℚ} {n : ℕ} (h : StrIncrOn t n) {q : ℚ}
    (hq : q < t 0) :
    ∀ j segs, j + segs ≤ n - 1 → interpSearch t q j segs = none := by
  intro j segs
  induction segs generalizing j with
  | zero => intro _; rfl
  | succ m ih =>
    intro hbud
    rw [interpSearch, if_neg]
    · exact ih (j + 1) (by omega)
    · rintro ⟨hlb, -⟩
      have : t 0 ≤ t j := strIncrOn_mono h 0 j (by omega) (by omega)
      linarith

theorem interpSearch_above {t : ℕ → ℚ} {n : ℕ} (h : StrIncrOn t n) {q : ℚ}
    (hq : t (n - 1) < q) :
    ∀ j segs, j + segs ≤ n - 1 → interpSearch t q j segs = none := by
  intro j segs
  induction segs generalizing j with
  | zero => intro _; rfl
  | succ m ih =>
    intro hbud
    rw [interpSearch, if_neg]
    · exact ih (j + 1) (by omega)
    · rintro ⟨-, hub⟩
      have : t (j + 1) ≤ t (n - 1) := strIncrOn_mono h (j + 1) (n - 1) (by omega) (by omega)
      linarith

theorem mapIndex_below {t : ℕ → ℚ} {n : ℕ} (h : StrIncrOn t n) (h2 : 2 ≤ n) {q : ℚ}
    (hq : q < t 0) : mapIndex n t q = (1 / (t 1 - t 0)) * (q - t 0) := by
  unfold mapIndex interp1dIndexNan
  rw [interpSearch_below h hq 0 (n - 1) (by omega)]
  rw [if_pos (le_of_lt hq)]

theorem mapIndex_above {t : ℕ → ℚ} {n : ℕ} (h : StrIncrOn t n) (h2 : 2 ≤ n) {q : ℚ}
    (hq : t (n - 1) < q) :
    mapIndex n t q = (1 / (t (n - 1) - t (n - 2))) * (q - t (n - 1)) + n - 1 := by
  unfold mapIndex interp1dIndexNan
  rw [interpSearch_above h hq 0 (n - 1) (by omega)]
  have h0 : t 0 ≤ t (n - 1) := strIncrOn_mono h 0 (n - 1) (by omega) (by omega)
  rw [if_neg (by push_neg; linarith), if_pos (le_of_lt hq)]

/-- `np.around` is the identity on integer-valued rationals. -/
theorem roundHalfEven_natCast (i : ℕ) : roundHalfEven (i : ℚ) = i := by
  unfold roundHalfEven
  have hf : ⌊(i : ℚ)⌋ = (i : ℤ) := by
    rw [show ((i : ℚ)) = ((i : ℤ) : ℚ) by push_cast; ring, Int.floor_intCast]
  rw [hf]
  dsimp only
  rw [if_pos]
  push_cast
  norm_num

theorem centralIndex_self {c : ℕ → ℚ} {n : ℕ} (h : StrIncrOn c n) (h2 : 2 ≤ n)
    {i : ℕ} (hi : i < n) : centralIndex n c c i = i := by
  unfold centralIndex
  rw [mapIndex_self h h2 hi, roundHalfEven_natCast]

theorem availIndex_self {c : ℕ → ℚ} {n : ℕ} (h : StrIncrOn c n) (h2 : 2 ≤ n)
    {i : ℕ} (hi : i < n) : availIndex n c c i = i := by
  unfold availIndex
  rw [centralIndex_self h h2 hi]
  dsimp only
  rw [if_neg (by omega), if_pos (by exact_mod_cast hi)]
  simp

/-! ## Structure of the COO entry lists -/

theorem walkUp_mem {d : DensityM} {inC : ℕ → ℚ} {nIn : ℕ} {lb ub cInUb : ℚ} :
    ∀ {fuel : ℕ} {cIn : ℤ} {p : ℕ × ℚ}, p ∈ walkUp d inC nIn lb ub cInUb cIn fuel →
      cIn ≤ (p.1 : ℤ) ∧ p.1 < nIn ∧ p.2 = d.integrate p.1 lb ub := by
  intro fuel
  induction fuel with
  | zero => intro cIn p hp; simp [walkUp] at hp
  | succ m ih =>
    intro cIn p hp
    rw [walkUp] at hp
    by_cases h0 : 0 ≤ cIn
    · rw [if_pos h0] at hp
      by_cases h1 : cIn < (nIn : ℤ)
      · rw [if_pos h1] at hp
        rcases List.mem_cons.mp hp with h' | h'
        · subst h'
          refine ⟨le_of_eq (Int.toNat_of_nonneg h0).symm, ?_, rfl⟩
          exact_mod_cast (Int.toNat_of_nonneg h0).symm ▸ h1
        · by_cases h2 : inC cIn.toNat > cInUb
          · rw [if_pos h2] at h'; simp at h'
          · rw [if_neg h2] at h'
            obtain ⟨ha, hb, hc⟩ := ih h'
            exact ⟨by omega, hb, hc⟩
      · rw [if_neg h1] at hp; simp at hp
    · rw [if_neg h0] at hp
      obtain ⟨ha, hb, hc⟩ := ih hp
      exact ⟨by omega, hb, hc⟩

theorem walkDown_mem {d : DensityM} {inC : ℕ → ℚ} {nIn : ℕ} {lb ub cInLb : ℚ} :
    ∀ {fuel : ℕ} {cIn : ℤ} {p : ℕ × ℚ}, p ∈ walkDown d inC nIn lb ub cInLb cIn fuel →
      (p.1 : ℤ) ≤ cIn ∧ p.1 < nIn ∧ p.2 = d.integrate p.1 lb ub := by
  intro fuel
  induction fuel with
  | zero => intro cIn p hp; simp [walkDown] at hp
  | succ m ih =>
    intro cIn p hp
    rw [walkDown] at hp
    by_cases h1 : cIn < (nIn : ℤ)
    · rw [if_pos h1] at hp
      by_cases h0 : 0 ≤ cIn
      · rw [if_pos h0] at hp
        rcases List.mem_cons.mp hp with h' | h'
        · subst h'
          refine ⟨le_of_eq (Int.toNat_of_nonneg h0), ?_, rfl⟩
          exact_mod_cast (Int.toNat_of_nonneg h0).symm ▸ h1
        · by_cases h2 : inC cIn.toNat < cInLb
          · rw [if_pos h2] at h'; simp at h'
          · rw [if_neg h2] at h'
            obtain ⟨ha, hb, hc⟩ := ih h'
            exact ⟨by omega, hb, hc⟩
      · rw [if_neg h0] at hp; simp at hp
    · rw [if_neg h1] at hp
      obtain ⟨ha, hb, hc⟩ := ih hp
      exact ⟨by omega, hb, hc⟩

theorem rowEntries_mem {d : DensityM} {nIn : ℕ} {inC : ℕ → ℚ} {nOut : ℕ} {outC : ℕ → ℚ}
    {i : ℕ} {p : ℕ × ℚ} (hp : p ∈ rowEntries d nIn inC nOut outC i) :
    p.1 < nIn ∧
      p.2 = d.integrate p.1 (centersToBins nOut outC i) (centersToBins nOut outC (i + 1)) := by
  rw [rowEntries] at hp
  dsimp only at hp
  by_cases hin : 0 ≤ centralIndex nIn inC outC i ∧ centralIndex nIn inC outC i < (nIn : ℤ)
  · rw [if_pos hin, if_pos hin, if_pos rfl] at hp
    rcases List.mem_append.mp hp with h' | h'
    · rcases List.mem_append.mp h' with h'' | h''
      · rcases List.mem_singleton.mp h'' with h3
        subst h3
        refine ⟨?_, rfl⟩
        have := hin.2
        omega
      · obtain ⟨-, hb, hc⟩ := walkUp_mem h''
        exact ⟨hb, hc⟩
    · obtain ⟨-, hb, hc⟩ := walkDown_mem h'
      exact ⟨hb, hc⟩
  · rw [if_neg hin, if_neg hin] at hp
    split at hp
    · simp at hp
    · rw [if_pos rfl, List.nil_append] at hp
      rcases List.mem_append.mp hp with h' | h'
      · obtain ⟨-, hb, hc⟩ := walkUp_mem h'
        exact ⟨hb, hc⟩
      · obtain ⟨-, hb, hc⟩ := walkDown_mem h'
        exact ⟨hb, hc⟩

theorem entrySum_nil (j : ℕ) : entrySum [] j = 0 := rfl

theorem entrySum_cons (p : ℕ × ℚ) (t : List (ℕ × ℚ)) (j : ℕ) :
    entrySum (p :: t) j = (if p.1 = j then p.2 else 0) + entrySum t j := by
  unfold entrySum
  rw [List.filter_cons]
  by_cases h : p.1 = j
  · rw [if_pos (by simpa using h), if_pos h, List.map_cons, List.sum_cons]
  · rw [if_neg (by simpa using h), if_neg h, zero_add]

theorem entrySum_append (l₁ l₂ : List (ℕ × ℚ)) (j : ℕ) :
    entrySum (l₁ ++ l₂) j = entrySum l₁ j + entrySum l₂ j := by
  unfold entrySum
  rw [List.filter_append, List.map_append, List.sum_append]

theorem entrySum_eq_zero {l : List (ℕ × ℚ)} {j : ℕ} (h : ∀ p ∈ l, p.1 ≠ j) :
    entrySum l j = 0 := by
  unfold entrySum
  have : l.filter (fun e => e.1 == j) = [] := by
    rw [List.filter_eq_nil]
    intro p hp
    simpa using h p hp
  rw [this]
  rfl

theorem sum_entrySum_range {l : List (ℕ × ℚ)} {n : ℕ} (h : ∀ p ∈ l, p.1 < n) :
    ∑ j ∈ Finset.range n, entrySum l j = (l.map (fun e => e.2)).sum := by
  induction l with
  | nil => simp [entrySum_nil]
  | cons p t ih =>
    have hsum : ∀ j, entrySum (p :: t) j = (if p.1 = j then p.2 else 0) + entrySum t j :=
      entrySum_cons p t
    rw [Finset.sum_congr rfl (fun j _ => hsum j), Finset.sum_add_distrib]
    rw [ih (fun q hq => h q (List.mem_cons_of_mem p hq))]
    rw [Finset.sum_ite_eq (Finset.range n) p.1 (fun _ => p.2)]
    rw [if_pos (Finset.mem_range.mpr (h p (List.mem_cons_self p t)))]
    simp

theorem list_sum_nonneg_all_zero {l : List ℚ} (h0 : ∀ x ∈ l, 0 ≤ x) (hs : l.sum = 0) :
    ∀ x ∈ l, x = 0 := by
  induction l with
  | nil => intro x hx; simp at hx
  | cons a t ih =>
    rw [List.sum_cons] at hs
    have hta : (0 : ℚ) ≤ t.sum :=
      List.sum_nonneg (fun x hx => h0 x (List.mem_cons_of_mem a hx))
    have ha : (0 : ℚ) ≤ a := h0 a (List.mem_cons_self a t)
    have ha0 : a = 0 := by linarith
    intro x hx
    rcases List.mem_cons.mp hx with h' | h'
    · rw [h', ha0]
    · exact ih (fun y hy => h0 y (List.mem_cons_of_mem a hy)) (by linarith) x h'

theorem rowSumPre_eq_sum {d : DensityM} {nIn : ℕ} {inC : ℕ → ℚ} {nOut : ℕ}
    {outC : ℕ → ℚ} {i : ℕ} (hi : i < nOut) :
    rowSumPre d nIn inC nOut outC i =
      ∑ j ∈ Finset.range nIn, resamplePre d nIn inC nOut outC i j := by
  unfold rowSumPre resamplePre
  rw [if_pos hi]
  rw [Finset.sum_congr rfl (fun j _ => if_pos hi)]
  exact (sum_entrySum_range (fun p hp => (rowEntries_mem hp).1)).symm

theorem resample_row_sum {nIn : ℕ} {inC : ℕ → ℚ} {nOut : ℕ} {outC : ℕ → ℚ}
    {dOpt : Option DensityM} {pn ue : Bool} {i : ℕ} (hi : i < nOut) :
    ∑ j ∈ Finset.range nIn, get_resampling_matrix nIn inC nOut outC dOpt pn ue i j =
      (if pn then normRescale (dOpt.getD (boxDensity nIn inC)) nIn inC nOut outC i
       else if ue then upRescale (dOpt.getD (boxDensity nIn inC)) nIn inC nOut outC i
       else 1) *
        rowSumPre (dOpt.getD (boxDensity nIn inC)) nIn inC nOut outC i := by
  unfold get_resampling_matrix
  rw [← Finset.mul_sum, ← rowSumPre_eq_sum hi]
  cases pn <;> cases ue <;> simp

theorem rowEntries_in_range {d : DensityM} {nIn : ℕ} {inC : ℕ → ℚ} {nOut : ℕ}
    {outC : ℕ → ℚ} {i : ℕ}
    (hin : 0 ≤ centralIndex nIn inC outC i ∧ centralIndex nIn inC outC i < (nIn : ℤ)) :
    rowEntries d nIn inC nOut outC i =
      ((centralIndex nIn inC outC i).toNat,
        d.integrate (centralIndex nIn inC outC i).toNat (centersToBins nOut outC i)
          (centersToBins nOut outC (i + 1))) ::
      (walkUp d inC nIn (centersToBins nOut outC i) (centersToBins nOut outC (i + 1))
        (d.rng (availIndex nIn inC outC (min (nOut - 1) (i + 1)))).2
        (centralIndex nIn inC outC i + 1) ((nIn : ℤ) - centralIndex nIn inC outC i).toNat ++
      walkDown d inC nIn (centersToBins nOut outC i) (centersToBins nOut outC (i + 1))
        (d.rng (availIndex nIn inC outC (i - 1))).1
        (centralIndex nIn inC outC i - 1) (centralIndex nIn inC outC i + 1).toNat) := by
  rw [rowEntries]
  dsimp only
  rw [if_pos hin, if_pos hin, if_pos rfl]
  rfl

theorem entrySum_of_vals_zero {l : List (ℕ × ℚ)} (h : ∀ p ∈ l, p.2 = 0) (j : ℕ) :
    entrySum l j = 0 := by
  unfold entrySum
  apply List.sum_eq_zero
  intro x hx
  rcases List.mem_map.mp hx with ⟨p, hp, hv⟩
  rw [← hv]
  exact h p (List.mem_of_mem_filter hp)

/-! ## The identity case: same input and output grid, box density -/

theorem boxInt_self_diag {c : ℕ → ℚ} {n : ℕ} (h : StrIncrOn c n) (h2 : 2 ≤ n)
    {i : ℕ} (hi : i < n) :
    (boxDensity n c).integrate i (centersToBins n c i) (centersToBins n c (i + 1)) = 1 := by
  unfold DensityM.integrate boxDensity
  dsimp only
  rw [boxF_eq_one (bins_strict h h2 i hi) (le_refl _),
    boxF_eq_zero (le_of_lt (bins_strict h h2 i hi)) (le_refl _)]
  norm_num

theorem boxInt_self_off {c : ℕ → ℚ} {n : ℕ} (h : StrIncrOn c n) (h2 : 2 ≤ n)
    {i j : ℕ} (hi : i < n) (hj : j < n) (hne : j ≠ i) :
    (boxDensity n c).integrate j (centersToBins n c i) (centersToBins n c (i + 1)) = 0 := by
  unfold DensityM.integrate boxDensity
  dsimp only
  rcases Nat.lt_or_ge j i with hJ | hJ
  · rw [boxF_eq_one (bins_strict h h2 j hj) (bins_mono h h2 (j + 1) (i + 1) (by omega) (by omega)),
      boxF_eq_one (bins_strict h h2 j hj) (bins_mono h h2 (j + 1) i (by omega) (by omega))]
    norm_num
  · have hJ' : i < j := by omega
    rw [boxF_eq_zero (le_of_lt (bins_strict h h2 j hj))
        (bins_mono h h2 (i + 1) j (by omega) (by omega)),
      boxF_eq_zero (le_of_lt (bins_strict h h2 j hj)) (bins_mono h h2 i j (by omega) (by omega))]
    norm_num

theorem rowEntries_self {c : ℕ → ℚ} {n : ℕ} (h : StrIncrOn c n) (h2 : 2 ≤ n)
    {i : ℕ} (hi : i < n) :
    rowEntries (boxDensity n c) n c n c i =
      (i, 1) ::
      (walkUp (boxDensity n c) c n (centersToBins n c i) (centersToBins n c (i + 1))
        ((boxDensity n c).rng (availIndex n c c (min (n - 1) (i + 1)))).2
        ((i : ℤ) + 1) ((n : ℤ) - i).toNat ++
      walkDown (boxDensity n c) c n (centersToBins n c i) (centersToBins n c (i + 1))
        ((boxDensity n c).rng (availIndex n c c (i - 1))).1
        ((i : ℤ) - 1) ((i : ℤ) + 1).toNat) := by
  have hc : centralIndex n c c i = i := centralIndex_self h h2 hi
  have hin : 0 ≤ centralIndex n c c i ∧ centralIndex n c c i < (n : ℤ) := by
    rw [hc]; exact ⟨by omega, by exact_mod_cast hi⟩
  rw [rowEntries_in_range hin, hc]
  rw [Int.toNat_natCast]
  rw [boxInt_self_diag h h2 hi]

theorem entrySum_self {c : ℕ → ℚ} {n : ℕ} (h : StrIncrOn c n) (h2 : 2 ≤ n)
    {i : ℕ} (hi : i < n) (j : ℕ) :
    entrySum (rowEntries (boxDensity n c) n c n c i) j = if i = j then 1 else 0 := by
  rw [rowEntries_self h h2 hi, entrySum_cons, entrySum_append]
  rw [entrySum_of_vals_zero (fun p hp => by
    obtain ⟨ha, hb, hcv⟩ := walkUp_mem hp
    rw [hcv]
    exact boxInt_self_off h h2 hi hb (by omega))]
  rw [entrySum_of_vals_zero (fun p hp => by
    obtain ⟨ha, hb, hcv⟩ := walkDown_mem hp
    rw [hcv]
    exact boxInt_self_off h h2 hi hb (by omega))]
  norm_num

theorem rowSumPre_self {c : ℕ → ℚ} {n : ℕ} (h : StrIncrOn c n) (h2 : 2 ≤ n)
    {i : ℕ} (hi : i < n) : rowSumPre (boxDensity n c) n c n c i = 1 := by
  unfold rowSumPre
  rw [if_pos hi, rowEntries_self h h2 hi]
  rw [List.map_cons, List.sum_cons, List.map_append, List.sum_append]
  rw [List.sum_eq_zero (fun x hx => by
    rcases List.mem_map.mp hx with ⟨p, hp, hv⟩
    obtain ⟨ha, hb, hcv⟩ := walkUp_mem hp
    rw [← hv, hcv]
    exact boxInt_self_off h h2 hi hb (by omega))]
  rw [List.sum_eq_zero (fun x hx => by
    rcases List.mem_map.mp hx with ⟨p, hp, hv⟩
    obtain ⟨ha, hb, hcv⟩ := walkDown_mem hp
    rw [← hv, hcv]
    exact boxInt_self_off h h2 hi hb (by omega))]
  norm_num

theorem rowSumPre_ge_zero_row {d : DensityM} {nIn : ℕ} {inC : ℕ → ℚ} {nOut : ℕ}
    {outC : ℕ → ℚ} {i : ℕ} (hge : nOut ≤ i) : rowSumPre d nIn inC nOut outC i = 0 := by
  unfold rowSumPre
  rw [if_neg (by omega)]

theorem normRescale_self {c : ℕ → ℚ} {n : ℕ} (h : StrIncrOn c n) (h2 : 2 ≤ n) (i : ℕ) :
    normRescale (boxDensity n c) n c n c i = 1 := by
  unfold normRescale
  rcases Nat.lt_or_ge i n with hi | hi
  · rw [rowSumPre_self h h2 hi]
    norm_num
  · rw [rowSumPre_ge_zero_row hi]
    norm_num

theorem foldl_ones {α : Type} (g : (ℕ → ℚ) → α → (ℕ → ℚ)) :
    ∀ (l : List α) (base : ℕ → ℚ), (∀ x, base x = 1) →
      (∀ acc k, k ∈ l → (∀ x, acc x = 1) → ∀ x, g acc k x = 1) →
      ∀ x, (l.foldl g base) x = 1 := by
  intro l
  induction l with
  | nil => intro base hbase _ x; exact hbase x
  | cons a t ih =>
    intro base hbase hg x
    rw [List.foldl_cons]
    exact ih (g base a) (hg base a (List.mem_cons_self a t) hbase)
      (fun acc k hk hacc => hg acc k (List.mem_cons_of_mem a hk) hacc) x

theorem range_headD_zero (n : ℕ) : (List.range n).headD 0 = 0 := by
  cases n with
  | zero => rfl
  | succ m => rw [List.range_succ_eq_map]; rfl

theorem range_getLastD (n : ℕ) : (List.range (n + 1)).getLastD 0 = n := by
  rw [List.range_succ]
  rw [List.getLastD_eq_getLast?, List.getLast?_concat]
  rfl

theorem upRescale_self {c : ℕ → ℚ} {n : ℕ} (h : StrIncrOn c n) (h2 : 2 ≤ n) (i : ℕ) :
    upRescale (boxDensity n c) n c n c i = 1 := by
  unfold upRescale
  have hfilter : (List.range n).filter
      (fun k => rowSumPre (boxDensity n c) n c n c k != 0) = List.range n := by
    apply List.filter_eq_self.mpr
    intro k hk
    rw [rowSumPre_self h h2 (List.mem_range.mp hk)]
    norm_num
  rw [hfilter]
  dsimp only
  by_cases h3 : 3 < (List.range n).length
  · rw [if_pos h3]
    rw [List.length_range] at h3
    have hfirst : (List.range n).headD 0 = 0 := range_headD_zero n
    have hlast : (List.range n).getLastD 0 = n - 1 := by
      have hn : n = (n - 1) + 1 := by omega
      rw [hn, range_getLastD]
      omega
    rw [hfirst, hlast]
    have havail : availIndex n c c 0 = 0 := availIndex_self h h2 (by omega)
    rw [havail]
    have hwidth : ((boxDensity n c).rng 0).2 - ((boxDensity n c).rng 0).1 = c 1 - c 0 := by
      unfold boxDensity
      dsimp only
      rw [binsMid h2 (by omega) (by omega), binsFirst h2]
      ring
    have hc01 : c 0 < c 1 := by
      have := h 0 (by omega)
      simpa using this
    have habs : |c (0 + 1) - c 0| = c 1 - c 0 := by
      rw [show 0 + 1 = 1 from rfl, abs_of_pos (by linarith)]
    rw [hwidth, habs]
    have hwhile : upWhile c n 0 (c 1 - c 0) 1 (c 1 - c 0) (n + 1) = 1 := by
      rw [upWhile, if_neg (lt_irrefl _)]
    rw [hwhile]
    apply foldl_ones
    · intro x; rfl
    · intro acc k hk hacc x
      have hk2 : k < 2 := List.mem_range.mp hk
      unfold upAssign
      have hpy : ∀ m : ℕ, m < n → pyIndex n ((((n : ℕ) - 1 : ℕ) : ℤ) - (m : ℤ)) = n - 1 - m := by
        intro m hm
        unfold pyIndex
        rw [if_pos (by omega)]
        omega
      split
      · rw [hpy 1 (by omega), hpy k (by omega), rowSumPre_self h h2 (by omega),
          rowSumPre_self h h2 (by omega)]
        norm_num
      · split
        · rw [rowSumPre_self h h2 (by omega), rowSumPre_self h h2 (by omega)]
          norm_num
        · exact hacc x
  · rw [if_neg h3]

/-- The identity lemma: with identical strictly increasing input and output
grids and the default box density, the resampling matrix is exactly the
identity, for every flag combination. -/
theorem resample_identity {c : ℕ → ℚ} {n : ℕ} (h : StrIncrOn c n) (h2 : 2 ≤ n)
    (pn ue : Bool) (i j : ℕ) :
    get_resampling_matrix n c n c none pn ue i j = if i = j ∧ i < n then 1 else 0 := by
  unfold get_resampling_matrix
  dsimp only [Option.getD]
  have hres : resamplePre (boxDensity n c) n c n c i j = if i = j ∧ i < n then 1 else 0 := by
    unfold resamplePre
    rcases Nat.lt_or_ge i n with hi | hi
    · rw [if_pos hi, entrySum_self h h2 hi j]
      by_cases hij : i = j
      · rw [if_pos hij, if_pos ⟨hij, hi⟩]
      · rw [if_neg hij, if_neg (by tauto)]
    · rw [if_neg (by omega), if_neg (fun hc => absurd hc.2 (by omega))]
  cases pn with
  | true => rw [if_pos rfl, normRescale_self h h2 i, hres, one_mul]
  | false =>
    rw [if_neg (by simp)]
    cases ue with
    | true => rw [if_pos rfl, upRescale_self h h2 i, hres, one_mul]
    | false => rw [if_neg (by simp), hres, one_mul]

/-! ## Row nonnegativity and per-row column multiplicity -/

theorem filter_col_nil {l : List (ℕ × ℚ)} {j : ℕ} (h : ∀ p ∈ l, p.1 ≠ j) :
    l.filter (fun e => e.1 == j) = [] :=
  List.filter_eq_nil_iff.mpr (fun p hp => by simpa using h p hp)

theorem walkUp_filter_len {d : DensityM} {inC : ℕ → ℚ} {nIn : ℕ} {lb ub cInUb : ℚ} :
    ∀ {fuel : ℕ} {cIn : ℤ} {j : ℕ},
      ((walkUp d inC nIn lb ub cInUb cIn fuel).filter (fun e => e.1 == j)).length ≤ 1 := by
  intro fuel
  induction fuel with
  | zero => intro cIn j; simp [walkUp]
  | succ m ih =>
    intro cIn j
    rw [walkUp]
    by_cases h0 : 0 ≤ cIn
    · rw [if_pos h0]
      by_cases h1 : cIn < (nIn : ℤ)
      · rw [if_pos h1, List.filter_cons]
        by_cases hj : cIn.toNat = j
        · rw [if_pos (by simpa using hj)]
          have htail :
              (if inC cIn.toNat > cInUb then []
               else walkUp d inC nIn lb ub cInUb (cIn + 1) m).filter
                (fun e => e.1 == j) = [] := by
            split
            · rfl
            · apply filter_col_nil
              intro p hp hpj
              obtain ⟨ha, -, -⟩ := walkUp_mem hp
              rw [hpj, ← hj] at ha
              rw [Int.toNat_of_nonneg h0] at ha
              omega
          rw [htail]
          simp
        · rw [if_neg (by simpa using hj)]
          split
          · simp
          · exact ih
      · rw [if_neg h1]; simp
    · rw [if_neg h0]; exact ih

theorem walkDown_filter_len {d : DensityM} {inC : ℕ → ℚ} {nIn : ℕ} {lb ub cInLb : ℚ} :
    ∀ {fuel : ℕ} {cIn : ℤ} {j : ℕ},
      ((walkDown d inC nIn lb ub cInLb cIn fuel).filter (fun e => e.1 == j)).length ≤ 1 := by
  intro fuel
  induction fuel with
  | zero => intro cIn j; simp [walkDown]
  | succ m ih =>
    intro cIn j
    rw [walkDown]
    by_cases h1 : cIn < (nIn : ℤ)
    · rw [if_pos h1]
      by_cases h0 : 0 ≤ cIn
      · rw [if_pos h0, List.filter_cons]
        by_cases hj : cIn.toNat = j
        · rw [if_pos (by simpa using hj)]
          have htail :
              (if inC cIn.toNat < cInLb then []
               else walkDown d inC nIn lb ub cInLb (cIn - 1) m).filter
                (fun e => e.1 == j) = [] := by
            split
            · rfl
            · apply filter_col_nil
              intro p hp hpj
              obtain ⟨ha, -, -⟩ := walkDown_mem hp
              rw [hpj, ← hj] at ha
              rw [Int.toNat_of_nonneg h0] at ha
              omega
          rw [htail]
          simp
        · rw [if_neg (by simpa using hj)]
          split
          · simp
          · exact ih
      · rw [if_neg h0]; simp
    · rw [if_neg h1]; exact ih

theorem walkUp_filter_nil {d : DensityM} {inC : ℕ → ℚ} {nIn : ℕ} {lb ub cInUb : ℚ}
    {fuel : ℕ} {cIn : ℤ} {j : ℕ} (hj : (j : ℤ) < cIn) :
    (walkUp d inC nIn lb ub cInUb cIn fuel).filter (fun e => e.1 == j) = [] :=
  filter_col_nil (fun p hp hpj => by
    obtain ⟨ha, -, -⟩ := walkUp_mem hp
    rw [hpj] at ha
    omega)

theorem walkDown_filter_nil {d : DensityM} {inC : ℕ → ℚ} {nIn : ℕ} {lb ub cInLb : ℚ}
    {fuel : ℕ} {cIn : ℤ} {j : ℕ} (hj : cIn < (j : ℤ)) :
    (walkDown d inC nIn lb ub cInLb cIn fuel).filter (fun e => e.1 == j) = [] :=
  filter_col_nil (fun p hp hpj => by
    obtain ⟨ha, -, -⟩ := walkDown_mem hp
    rw [hpj] at ha
    omega)

theorem rowEntries_filter_len {d : DensityM} {nIn : ℕ} {inC : ℕ → ℚ} {nOut : ℕ}
    {outC : ℕ → ℚ} {i j : ℕ} :
    ((rowEntries d nIn inC nOut outC i).filter (fun e => e.1 == j)).length ≤ 1 := by
  by_cases hin : 0 ≤ centralIndex nIn inC outC i ∧ centralIndex nIn inC outC i < (nIn : ℤ)
  · rw [rowEntries_in_range hin, List.filter_cons, List.filter_append]
    rcases lt_trichotomy ((j : ℤ)) (centralIndex nIn inC outC i) with hj | hj | hj
    · rw [if_neg (by
        simp only [beq_iff_eq]
        intro hcol
        rw [← hcol, Int.toNat_of_nonneg hin.1] at hj
        omega)]
      rw [walkUp_filter_nil (by omega)]
      simpa using walkDown_filter_len
    · rw [if_pos (by
        simp only [beq_iff_eq]
        omega)]
      rw [walkUp_filter_nil (by omega), walkDown_filter_nil (by omega)]
      simp
    · rw [if_neg (by
        simp only [beq_iff_eq]
        intro hcol
        rw [← hcol, Int.toNat_of_nonneg hin.1] at hj
        omega)]
      rw [walkDown_filter_nil (by omega)]
      simpa using walkUp_filter_len
  · rw [rowEntries]
    dsimp only
    rw [if_neg hin, if_neg hin]
    split
    · simp
    · rw [if_pos rfl, List.nil_append, List.filter_append]
      by_cases hj : (j : ℤ) ≤ centralIndex nIn inC outC i - 1
      · rw [walkUp_filter_nil (by omega)]
        simpa using walkDown_filter_len
      · rw [walkDown_filter_nil (by omega)]
        simpa using walkUp_filter_len

theorem entrySum_zero_or {l : List (ℕ × ℚ)} {j : ℕ} {v : ℚ}
    (hlen : (l.filter (fun e => e.1 == j)).length ≤ 1)
    (hval : ∀ p ∈ l, p.1 = j → p.2 = v) :
    entrySum l j = 0 ∨ entrySum l j = v := by
  unfold entrySum
  match hfe : l.filter (fun e => e.1 == j) with
  | [] => left; rw [hfe]; rfl
  | [a] =>
    right
    rw [hfe, List.map_singleton, List.sum_singleton]
    have hal : a ∈ l.filter (fun e => e.1 == j) := by rw [hfe]; exact List.mem_singleton_self a
    exact hval a (List.mem_of_mem_filter hal) (by simpa using List.of_mem_filter hal)
  | a :: b :: t =>
    rw [hfe] at hlen
    simp at hlen

theorem rowEntries_val_nonneg {d : DensityM} {nIn : ℕ} {inC : ℕ → ℚ} {nOut : ℕ}
    {outC : ℕ → ℚ} {i : ℕ}
    (hd : ∀ k a b, a ≤ b → d.F k a ≤ d.F k b)
    (hout : StrIncrOn outC nOut) (h2out : 2 ≤ nOut) (hi : i < nOut) :
    ∀ p ∈ rowEntries d nIn inC nOut outC i, 0 ≤ p.2 := by
  intro p hp
  obtain ⟨-, hv⟩ := rowEntries_mem hp
  rw [hv]
  unfold DensityM.integrate
  have : centersToBins nOut outC i ≤ centersToBins nOut outC (i + 1) :=
    le_of_lt (bins_strict hout h2out i hi)
  have := hd p.1 _ _ this
  linarith

theorem rowSumPre_nonneg {d : DensityM} {nIn : ℕ} {inC : ℕ → ℚ} {nOut : ℕ}
    {outC : ℕ → ℚ} {i : ℕ}
    (hd : ∀ k a b, a ≤ b → d.F k a ≤ d.F k b)
    (hout : StrIncrOn outC nOut) (h2out : 2 ≤ nOut) :
    0 ≤ rowSumPre d nIn inC nOut outC i := by
  unfold rowSumPre
  split
  · next hi =>
    apply List.sum_nonneg
    intro x hx
    rcases List.mem_map.mp hx with ⟨p, hp, hv⟩
    rw [← hv]
    exact rowEntries_val_nonneg hd hout h2out hi p hp
  · rfl

theorem rowSum_zero_entries {d : DensityM} {nIn : ℕ} {inC : ℕ → ℚ} {nOut : ℕ}
    {outC : ℕ → ℚ} {i : ℕ}
    (hd : ∀ k a b, a ≤ b → d.F k a ≤ d.F k b)
    (hout : StrIncrOn outC nOut) (h2out : 2 ≤ nOut) (hi : i < nOut)
    (hz : rowSumPre d nIn inC nOut outC i = 0) :
    ∀ j, resamplePre d nIn inC nOut outC i j = 0 := by
  intro j
  unfold resamplePre
  rw [if_pos hi]
  apply entrySum_of_vals_zero
  intro p hp
  unfold rowSumPre at hz
  rw [if_pos hi] at hz
  have := list_sum_nonneg_all_zero
    (fun x hx => by
      rcases List.mem_map.mp hx with ⟨q, hq, hv⟩
      rw [← hv]
      exact rowEntries_val_nonneg hd hout h2out hi q hq)
    hz
  exact this p.2 (List.mem_map.mpr ⟨p, hp, rfl⟩)

/-- `boxF` takes values in `[0, 1]` for arbitrary bin bounds. -/
theorem boxF_bounds_all (bins : ℕ → ℚ) (j : ℕ) (coord : ℚ) :
    0 ≤ boxF bins j coord ∧ boxF bins j coord ≤ 1 := by
  rcases lt_or_ge (bins j) (bins (j + 1)) with hb | hb
  · exact ⟨boxF_nonneg hb coord, boxF_le_one hb coord⟩
  · unfold boxF
    dsimp only
    split
    · norm_num
    · split
      · norm_num
      · next h1 h2 =>
        have : coord = bins j := by
          push_neg at h1 h2
          linarith
        rw [this, sub_self, zero_div]
        norm_num

/-- `boxF` is monotone in the coordinate for arbitrary (even degenerate) bin
bounds. -/
theorem boxF_mono_all (bins : ℕ → ℚ) (j : ℕ) {a b : ℚ} (hab : a ≤ b) :
    boxF bins j a ≤ boxF bins j b := by
  rcases lt_or_ge (bins j) (bins (j + 1)) with hb | hb
  · exact boxF_mono hb hab
  · by_cases hA : bins j > a
    · have ha0 : boxF bins j a = 0 := by
        unfold boxF
        dsimp only
        rw [if_pos hA]
      rw [ha0]
      exact (boxF_bounds_all bins j b).1
    · by_cases hA2 : bins (j + 1) < a
      · have ha1 : boxF bins j a = 1 := by
          unfold boxF
          dsimp only
          rw [if_neg hA, if_pos hA2]
        have hb1 : boxF bins j b = 1 := by
          unfold boxF
          dsimp only
          rw [if_neg (by push_neg at hA ⊢; linarith), if_pos (by linarith)]
        rw [ha1, hb1]
      · have hae : a = bins j := by
          push_neg at hA hA2
          linarith
        have ha0 : boxF bins j a = 0 := by
          unfold boxF
          dsimp only
          rw [if_neg hA, if_neg hA2, hae, sub_self, zero_div]
        rw [ha0]
        exact (boxF_bounds_all bins j b).1

theorem resample_no_rescale {nIn : ℕ} {inC : ℕ → ℚ} {nOut : ℕ} {outC : ℕ → ℚ}
    (i j : ℕ) :
    get_resampling_matrix nIn inC nOut outC none false false i j =
      resamplePre (boxDensity nIn inC) nIn inC nOut outC i j := by
  unfold get_resampling_matrix
  norm_num

/-- Each entry of the unrescaled box-density matrix is `0` or the box integral
over the row's output bin, hence bounded by it. -/
theorem resamplePre_entry_bound {nIn : ℕ} {inC : ℕ → ℚ} {nOut : ℕ} {outC : ℕ → ℚ}
    (hout : StrIncrOn outC nOut) (h2out : 2 ≤ nOut) {i : ℕ} (hi : i < nOut) (j : ℕ) :
    0 ≤ resamplePre (boxDensity nIn inC) nIn inC nOut outC i j ∧
      resamplePre (boxDensity nIn inC) nIn inC nOut outC i j ≤
        (boxDensity nIn inC).integrate j (centersToBins nOut outC i)
          (centersToBins nOut outC (i + 1)) := by
  have hVnn : 0 ≤ (boxDensity nIn inC).integrate j (centersToBins nOut outC i)
      (centersToBins nOut outC (i + 1)) := by
    unfold DensityM.integrate boxDensity
    dsimp only
    have := boxF_mono_all (centersToBins nIn inC) j
      (le_of_lt (bins_strict hout h2out i hi))
    linarith
  have hzo := entrySum_zero_or (l := rowEntries (boxDensity nIn inC) nIn inC nOut outC i)
    (j := j)
    (v := (boxDensity nIn inC).integrate j (centersToBins nOut outC i)
      (centersToBins nOut outC (i + 1)))
    rowEntries_filter_len
    (fun p hp hpj => by
      obtain ⟨-, hv⟩ := rowEntries_mem hp
      rw [hv, hpj])
  unfold resamplePre
  rw [if_pos hi]
  rcases hzo with h' | h' <;> rw [h']
  · exact ⟨le_refl _, hVnn⟩
  · exact ⟨hVnn, le_refl _⟩

/-- Column sums of the unrescaled box-density matrix lie in `[0, 1]`: an input
pixel contributes at most its whole (unit-normalized) flux. -/
theorem resamplePre_col_bound {nIn : ℕ} {inC : ℕ → ℚ} {nOut : ℕ} {outC : ℕ → ℚ}
    (hout : StrIncrOn outC nOut) (h2out : 2 ≤ nOut) (j : ℕ) :
    0 ≤ ∑ i ∈ Finset.range nOut, resamplePre (boxDensity nIn inC) nIn inC nOut outC i j ∧
      ∑ i ∈ Finset.range nOut, resamplePre (boxDensity nIn inC) nIn inC nOut outC i j ≤ 1 := by
  constructor
  · apply Finset.sum_nonneg
    intro i hi
    exact (resamplePre_entry_bound hout h2out (Finset.mem_range.mp hi) j).1
  · have hle : ∑ i ∈ Finset.range nOut, resamplePre (boxDensity nIn inC) nIn inC nOut outC i j ≤
        ∑ i ∈ Finset.range nOut, (boxF (centersToBins nIn inC) j (centersToBins nOut outC (i + 1))
          - boxF (centersToBins nIn inC) j (centersToBins nOut outC i)) := by
      apply Finset.sum_le_sum
      intro i hi
      exact (resamplePre_entry_bound hout h2out (Finset.mem_range.mp hi) j).2
    rw [Finset.sum_range_sub (fun i => boxF (centersToBins nIn inC) j (centersToBins nOut outC i))] at hle
    have h1 := (boxF_bounds_all (centersToBins nIn inC) j (centersToBins nOut outC nOut)).2
    have h0 := (boxF_bounds_all (centersToBins nIn inC) j (centersToBins nOut outC 0)).1
    linarith

/-! ## Claims C1, C2, C3 -/

/-- C1: with `preserve_normalization=True`, for every pixel density (any
monotone per-pixel cumulative integral), strictly increasing grids and either
value of `upweight_ends`, the returned matrix is independent of
`upweight_ends` (normalization overrides edge upweighting entirely), and every
row either sums to exactly 1 or is all-zero (zero rows are left unscaled, so a
vector of ones maps to ones at every nonzero row). -/
theorem claim_C1 (nIn nOut : ℕ) (inC outC : ℕ → ℚ) (d : DensityM)
    (hd : ∀ k a b, a ≤ b → d.F k a ≤ d.F k b)
    (hout : StrIncrOn outC nOut) (h2out : 2 ≤ nOut) (ue : Bool) :
    (∀ ue', get_resampling_matrix nIn inC nOut outC (some d) true ue' =
      get_resampling_matrix nIn inC nOut outC (some d) true ue) ∧
    ∀ i < nOut,
      (∑ j ∈ Finset.range nIn,
        get_resampling_matrix nIn inC nOut outC (some d) true ue i j = 1) ∨
      (∀ j, get_resampling_matrix nIn inC nOut outC (some d) true ue i j = 0) := by
  constructor
  · intro ue'
    rfl
  · intro i hi
    by_cases hz : rowSumPre d nIn inC nOut outC i = 0
    · right
      intro j
      show (if (true : Bool) then normRescale d nIn inC nOut outC
          else if ue then upRescale d nIn inC nOut outC else fun _ => 1) i *
          resamplePre d nIn inC nOut outC i j = 0
      rw [rowSum_zero_entries hd hout h2out hi hz j, mul_zero]
    · left
      have hpos : 0 < rowSumPre d nIn inC nOut outC i :=
        lt_of_le_of_ne (rowSumPre_nonneg hd hout h2out) (Ne.symm hz)
      rw [resample_row_sum hi]
      show normRescale d nIn inC nOut outC i * rowSumPre d nIn inC nOut outC i = 1
      unfold normRescale
      rw [if_pos hpos, one_div, inv_mul_cancel₀ hz]

theorem claim_C1_witness :
    (∀ k a b, a ≤ b → (boxDensity 2 (fun i => (i : ℚ))).F k a ≤
      (boxDensity 2 (fun i => (i : ℚ))).F k b) ∧
    StrIncrOn (fun i => (i : ℚ)) 2 ∧ 2 ≤ 2 ∧
    ((∀ ue', get_resampling_matrix 2 (fun i => (i : ℚ)) 2 (fun i => (i : ℚ))
        (some (boxDensity 2 (fun i => (i : ℚ)))) true ue' =
      get_resampling_matrix 2 (fun i => (i : ℚ)) 2 (fun i => (i : ℚ))
        (some (boxDensity 2 (fun i => (i : ℚ)))) true true) ∧
    ∀ i < 2,
      (∑ j ∈ Finset.range 2,
        get_resampling_matrix 2 (fun i => (i : ℚ)) 2 (fun i => (i : ℚ))
          (some (boxDensity 2 (fun i => (i : ℚ)))) true true i j = 1) ∨
      (∀ j, get_resampling_matrix 2 (fun i => (i : ℚ)) 2 (fun i => (i : ℚ))
        (some (boxDensity 2 (fun i => (i : ℚ)))) true true i j = 0)) := by
  refine ⟨fun k a b hab => boxF_mono_all _ k hab, ?_, le_refl 2, ?_⟩
  · intro i hi
    interval_cases i <;> norm_num
  · exact claim_C1 2 2 (fun i => (i : ℚ)) (fun i => (i : ℚ))
      (boxDensity 2 (fun i => (i : ℚ))) (fun k a b hab => boxF_mono_all _ k hab)
      (by intro i hi; interval_cases i <;> norm_num) (le_refl 2) true

/-- C2, counterexample: with the default box density and both rescales off,
input centers `[0,1,2,3,4]` and output centers `[0,4]` give first-row sum
`5/2 > 1` (the output pixel spans several input pixels, so the row sum is the
number of covered input pixels, not a fraction ≤ 1). -/
theorem claim_C2_counterexample :
    StrIncrOn (fun i => (i : ℚ)) 5 ∧ StrIncrOn (fun i => 4 * (i : ℚ)) 2 ∧
      ∑ j ∈ Finset.range 5,
        get_resampling_matrix 5 (fun i => (i : ℚ)) 2 (fun i => 4 * (i : ℚ))
          none false false 0 j = 5 / 2 := by
  refine ⟨by intro i hi; interval_cases i <;> norm_num,
    by intro i hi; interval_cases i <;> norm_num, ?_⟩
  rw [resample_row_sum (by norm_num)]
  norm_num
  norm_num [rowSumPre, rowEntries, walkUp, walkDown,
    centralIndex, availIndex, mapIndex, interp1dIndexNan, interpSearch, roundHalfEven,
    centersToBins, boxDensity, boxF, DensityM.integrate]
  simp only [Int.reduceToNat]
  norm_num [walkUp, walkDown, centersToBins, boxF, DensityM.integrate]

/-- C2, amended: with the default box density, `preserve_normalization=False`
and `upweight_ends=False`, every *column* sum of the matrix lies in `[0, 1]`
(no input pixel's flux is amplified — the flux-conservation content of the
claim); row sums can exceed 1 when an output pixel spans several input
pixels, as the counterexample shows. -/
theorem claim_C2 (nIn nOut : ℕ) (inC outC : ℕ → ℚ) (hin : StrIncrOn inC nIn)
    (h2in : 2 ≤ nIn) (hout : StrIncrOn outC nOut) (h2out : 2 ≤ nOut) (j : ℕ) :
    0 ≤ ∑ i ∈ Finset.range nOut,
        get_resampling_matrix nIn inC nOut outC none false false i j ∧
      ∑ i ∈ Finset.range nOut,
        get_resampling_matrix nIn inC nOut outC none false false i j ≤ 1 := by
  have hrw : ∀ i, get_resampling_matrix nIn inC nOut outC none false false i j =
      resamplePre (boxDensity nIn inC) nIn inC nOut outC i j :=
    fun i => resample_no_rescale i j
  rw [Finset.sum_congr rfl (fun i _ => hrw i)]
  exact resamplePre_col_bound hout h2out j

theorem claim_C2_witness :
    StrIncrOn (fun i => (i : ℚ)) 2 ∧ (2 ≤ 2) ∧
      (0 ≤ ∑ i ∈ Finset.range 2,
          get_resampling_matrix 2 (fun i => (i : ℚ)) 2 (fun i => (i : ℚ))
            none false false i 0 ∧
        ∑ i ∈ Finset.range 2,
          get_resampling_matrix 2 (fun i => (i : ℚ)) 2 (fun i => (i : ℚ))
            none false false i 0 ≤ 1) := by
  refine ⟨?_, le_refl 2, ?_⟩
  · intro i hi
    interval_cases i <;> norm_num
  · exact claim_C2 2 2 (fun i => (i : ℚ)) (fun i => (i : ℚ))
      (by intro i hi; interval_cases i <;> norm_num) (le_refl 2)
      (by intro i hi; interval_cases i <;> norm_num) (le_refl 2) 0

/-- C3: with identical strictly increasing input and output grids and the
default box density (and the default flags `preserve_normalization=False`,
`upweight_ends=True`), the resampling matrix is exactly the identity. -/
theorem claim_C3 (n : ℕ) (c : ℕ → ℚ) (h : StrIncrOn c n) (h2 : 2 ≤ n) (i j : ℕ) :
    get_resampling_matrix n c n c none false true i j = if i = j ∧ i < n then 1 else 0 :=
  resample_identity h h2 false true i j

theorem claim_C3_witness :
    StrIncrOn (fun i => (i : ℚ)) 3 ∧ (2 ≤ 3) ∧
      get_resampling_matrix 3 (fun i => (i : ℚ)) 3 (fun i => (i : ℚ)) none false true 1 1 = 1 ∧
      get_resampling_matrix 3 (fun i => (i : ℚ)) 3 (fun i => (i : ℚ)) none false true 1 0 = 0 := by
  have hs : StrIncrOn (fun i => (i : ℚ)) 3 := by
    intro i hi
    interval_cases i <;> norm_num
  refine ⟨hs, by norm_num, ?_, ?_⟩
  · rw [claim_C3 3 (fun i => (i : ℚ)) hs (by norm_num) 1 1]
    norm_num
  · rw [claim_C3 3 (fun i => (i : ℚ)) hs (by norm_num) 1 0]
    norm_num

/-! ## Lemmas for `simple_coadd` (claim C4) -/

theorem foldl_pred {α : Type} (P : ℚ → Prop) (g : (ℕ → ℚ) → α → (ℕ → ℚ)) :
    ∀ (l : List α) (base : ℕ → ℚ), (∀ x, P (base x)) →
      (∀ acc k, k ∈ l → (∀ x, P (acc x)) → ∀ x, P (g acc k x)) →
      ∀ x, P ((l.foldl g base) x) := by
  intro l
  induction l with
  | nil => intro base hbase _ x; exact hbase x
  | cons a t ih =>
    intro base hbase hg x
    rw [List.foldl_cons]
    exact ih (g base a) (hg base a (List.mem_cons_self a t) hbase)
      (fun acc k hk hacc => hg acc k (List.mem_cons_of_mem a hk) hacc) x

theorem upAssign_foldl_nonneg {rowSum : ℕ → ℚ} (hrs : ∀ k, 0 ≤ rowSum k)
    (nOut first last nzd : ℕ) (l : List ℕ) (x : ℕ) :
    0 ≤ (l.foldl (upAssign rowSum nOut first last nzd) (fun _ => 1)) x := by
  apply foldl_pred (fun q => 0 ≤ q)
  · intro y; norm_num
  · intro acc k hk hacc y
    unfold upAssign
    by_cases h1 : y = pyIndex nOut ((last : ℤ) - k)
    · rw [if_pos h1]
      exact div_nonneg (hrs _) (hrs _)
    · rw [if_neg h1]
      by_cases h2 : y = first + k
      · rw [if_pos h2]
        exact div_nonneg (hrs _) (hrs _)
      · rw [if_neg h2]
        exact hacc y

theorem upRescale_nonneg {d : DensityM} {nIn : ℕ} {inC : ℕ → ℚ} {nOut : ℕ}
    {outC : ℕ → ℚ} (hd : ∀ k a b, a ≤ b → d.F k a ≤ d.F k b)
    (hout : StrIncrOn outC nOut) (h2out : 2 ≤ nOut) (i : ℕ) :
    0 ≤ upRescale d nIn inC nOut outC i := by
  unfold upRescale
  dsimp only
  split
  · exact upAssign_foldl_nonneg (fun k => rowSumPre_nonneg hd hout h2out) _ _ _ _ _ i
  · norm_num

theorem normRescale_nonneg {d : DensityM} {nIn : ℕ} {inC : ℕ → ℚ} {nOut : ℕ}
    {outC : ℕ → ℚ} (i : ℕ) : 0 ≤ normRescale d nIn inC nOut outC i := by
  unfold normRescale
  split
  · next h => positivity
  · norm_num

theorem box_matrix_rescale {nIn : ℕ} {inC : ℕ → ℚ} {nOut : ℕ} {outC : ℕ → ℚ}
    {pn ue : Bool} (i j : ℕ) :
    get_resampling_matrix nIn inC nOut outC none pn ue i j =
      (if pn then normRescale (boxDensity nIn inC) nIn inC nOut outC i
       else if ue then upRescale (boxDensity nIn inC) nIn inC nOut outC i
       else 1) * resamplePre (boxDensity nIn inC) nIn inC nOut outC i j := by
  unfold get_resampling_matrix
  cases pn <;> cases ue <;> simp

theorem getD_none_box (nIn : ℕ) (inC : ℕ → ℚ) :
    (none : Option DensityM).getD (boxDensity nIn inC) = boxDensity nIn inC := rfl

theorem boxDensity_F_mono (nIn : ℕ) (inC : ℕ → ℚ) :
    ∀ k a b, a ≤ b → (boxDensity nIn inC).F k a ≤ (boxDensity nIn inC).F k b :=
  fun k a b hab => boxF_mono_all (centersToBins nIn inC) k hab

theorem box_matrix_rowsum_nonneg {n nOut : ℕ} {w outC : ℕ → ℚ} {pn ue : Bool}
    (hout : StrIncrOn outC nOut) (h2out : 2 ≤ nOut) (i : ℕ) :
    0 ≤ ∑ j ∈ Finset.range n, get_resampling_matrix n w nOut outC none pn ue i j := by
  rcases Nat.lt_or_ge i nOut with hi | hi
  · rw [resample_row_sum hi, getD_none_box]
    apply mul_nonneg
    · cases pn
      · cases ue
        · norm_num
        · exact upRescale_nonneg (boxDensity_F_mono n w) hout h2out i
      · exact normRescale_nonneg i
    · exact rowSumPre_nonneg (boxDensity_F_mono n w) hout h2out
  · apply Finset.sum_nonneg
    intro j _
    rw [box_matrix_rescale]
    unfold resamplePre
    rw [if_neg (show ¬ i < nOut by omega), mul_zero]

theorem box_matrix_row_zero {n nOut : ℕ} {w outC : ℕ → ℚ} {pn ue : Bool}
    (hout : StrIncrOn outC nOut) (h2out : 2 ≤ nOut) {i : ℕ}
    (hz : ∑ j ∈ Finset.range n, get_resampling_matrix n w nOut outC none pn ue i j = 0) :
    ∀ j, get_resampling_matrix n w nOut outC none pn ue i j = 0 := by
  intro j
  rcases Nat.lt_or_ge i nOut with hi | hi
  · rw [resample_row_sum hi, getD_none_box] at hz
    rw [box_matrix_rescale]
    rcases mul_eq_zero.mp hz with hr | hs
    · rw [hr, zero_mul]
    · rw [rowSum_zero_entries (boxDensity_F_mono n w) hout h2out hi hs j, mul_zero]
  · rw [box_matrix_rescale]
    unfold resamplePre
    rw [if_neg (show ¬ i < nOut by omega), mul_zero]

theorem simpleCoaddAcc_sum (o0 : OrderDat) (rest : List OrderDat) (nOut : ℕ)
    (outC : ℕ → ℚ) (i : ℕ) :
    (simpleCoaddAcc o0 rest nOut outC).1 i =
      matVec o0.n (get_resampling_matrix o0.n o0.wvs nOut outC none false true) o0.flux i +
        (rest.map (fun o =>
          matVec o.n (get_resampling_matrix o.n o.wvs nOut outC none true true) o.flux i)).sum ∧
    (simpleCoaddAcc o0 rest nOut outC).2.1 i =
      matVec o0.n (get_resampling_matrix o0.n o0.wvs nOut outC none false true) (fun _ => 1) i +
        (rest.map (fun o =>
          matVec o.n (get_resampling_matrix o.n o.wvs nOut outC none true true)
            (fun _ => 1) i)).sum := by
  unfold simpleCoaddAcc
  dsimp only
  have key : ∀ (t : List OrderDat) (a : (ℕ → ℚ) × (ℕ → ℚ) × (ℕ → ℕ → ℚ)),
      (t.foldl
        (fun (a : (ℕ → ℚ) × (ℕ → ℚ) × (ℕ → ℕ → ℚ)) (o : OrderDat) =>
          (fun i => a.1 i + matVec o.n
              (get_resampling_matrix o.n o.wvs nOut outC none true true) o.flux i,
           fun i => a.2.1 i + matVec o.n
              (get_resampling_matrix o.n o.wvs nOut outC none true true) (fun _ => 1) i,
           fun i j => a.2.2 i j + get_transformed_covariances nOut o.n
              (get_resampling_matrix o.n o.wvs nOut outC none true true) o.covar 0 i j)) a).1 i =
        a.1 i + (t.map (fun o =>
          matVec o.n (get_resampling_matrix o.n o.wvs nOut outC none true true) o.flux i)).sum ∧
      (t.foldl
        (fun (a : (ℕ → ℚ) × (ℕ → ℚ) × (ℕ → ℕ → ℚ)) (o : OrderDat) =>
          (fun i => a.1 i + matVec o.n
              (get_resampling_matrix o.n o.wvs nOut outC none true true) o.flux i,
           fun i => a.2.1 i + matVec o.n
              (get_resampling_matrix o.n o.wvs nOut outC none true true) (fun _ => 1) i,
           fun i j => a.2.2 i j + get_transformed_covariances nOut o.n
              (get_resampling_matrix o.n o.wvs nOut outC none true true) o.covar 0 i j)) a).2.1 i =
        a.2.1 i + (t.map (fun o =>
          matVec o.n (get_resampling_matrix o.n o.wvs nOut outC none true true)
            (fun _ => 1) i)).sum := by
    intro t
    induction t with
    | nil => intro a; simp
    | cons o t ih =>
      intro a
      rw [List.foldl_cons, List.map_cons, List.sum_cons, List.map_cons, List.sum_cons]
      obtain ⟨h1, h2⟩ := ih _
      rw [h1, h2]
      dsimp only
      constructor <;> ring
  obtain ⟨h1, h2⟩ := key rest _
  rw [h1, h2]
  exact ⟨rfl, rfl⟩

/-- Collapsing a sum against a Kronecker-delta factor on the left. -/
theorem sum_ident_left (n : ℕ) (f : ℕ → ℚ) (i : ℕ) :
    ∑ k ∈ Finset.range n, (if i = k ∧ i < n then 1 else 0) * f k =
      if i < n then f i else 0 := by
  by_cases hi : i < n
  · rw [Finset.sum_congr rfl (fun k _ => show (if i = k ∧ i < n then 1 else 0) * f k =
        if i = k then f k else 0 by
      by_cases h : i = k
      · rw [if_pos ⟨h, hi⟩, if_pos h, one_mul]
      · rw [if_neg (by tauto), if_neg h, zero_mul])]
    rw [Finset.sum_ite_eq (Finset.range n) i f, if_pos (Finset.mem_range.mpr hi)]
    rw [if_pos hi]
  · rw [if_neg hi]
    apply Finset.sum_eq_zero
    intro k _
    rw [if_neg (by tauto), zero_mul]

theorem matVec_identity (n : ℕ) (v : ℕ → ℚ) (i : ℕ) :
    matVec n (fun a b => if a = b ∧ a < n then 1 else 0) v i = if i < n then v i else 0 := by
  unfold matVec
  exact sum_ident_left n v i

/-- `T·Cov·Tᵗ` with `T` the identity and a diagonal covariance. -/
theorem covTrans_identity (n : ℕ) (v : ℕ → ℚ) (i j : ℕ) :
    get_transformed_covariances n n (fun a b => if a = b ∧ a < n then 1 else 0)
      (.vec v) 0 i j = if i = j ∧ i < n then v i else 0 := by
  unfold get_transformed_covariances
  rw [if_neg (by norm_num)]
  dsimp only
  have hinner : ∀ k, (∑ l ∈ Finset.range n,
      (if i = k ∧ i < n then (1 : ℚ) else 0) * covAsMatrix n (.vec v) k l *
        (if j = l ∧ j < n then 1 else 0)) =
      (if j < n then (if i = k ∧ i < n then (1 : ℚ) else 0) * covAsMatrix n (.vec v) k j
       else 0) := by
    intro k
    have hcomm : ∀ l, (if i = k ∧ i < n then (1 : ℚ) else 0) * covAsMatrix n (.vec v) k l *
        (if j = l ∧ j < n then 1 else 0) =
        (if j = l ∧ j < n then (1 : ℚ) else 0) *
          ((if i = k ∧ i < n then (1 : ℚ) else 0) * covAsMatrix n (.vec v) k l) := by
      intro l
      ring
    rw [Finset.sum_congr rfl (fun l _ => hcomm l)]
    exact sum_ident_left n
      (fun l => (if i = k ∧ i < n then (1 : ℚ) else 0) * covAsMatrix n (.vec v) k l) j
  rw [Finset.sum_congr rfl (fun k _ => hinner k)]
  by_cases hj : j < n
  · rw [Finset.sum_congr rfl (fun k _ => if_pos hj)]
    rw [sum_ident_left n (fun k => covAsMatrix n (.vec v) k j) i]
    unfold covAsMatrix
    by_cases hi : i < n
    · rw [if_pos hi]
    · rw [if_neg hi, if_neg (show ¬(i = j ∧ i < n) from fun hc => hi hc.2)]
  · rw [Finset.sum_congr rfl (fun k _ => if_neg hj), Finset.sum_const_zero]
    rw [if_neg (show ¬(i = j ∧ i < n) from fun hc => hj (hc.1 ▸ hc.2))]

theorem matVec_ones_eq_rowsum (n : ℕ) (T : ℕ → ℕ → ℚ) (i : ℕ) :
    matVec n T (fun _ => 1) i = ∑ j ∈ Finset.range n, T i j := by
  unfold matVec
  exact Finset.sum_congr rfl (fun j _ => mul_one _)

theorem matVec_congr {n : ℕ} {T T' : ℕ → ℕ → ℚ} (hT : ∀ a b, T a b = T' a b)
    (v : ℕ → ℚ) (i : ℕ) : matVec n T v i = matVec n T' v i := by
  unfold matVec
  exact Finset.sum_congr rfl (fun j _ => by rw [hT i j])

theorem covTrans_congr {nOut nIn : ℕ} {T T' : ℕ → ℕ → ℚ} (hT : ∀ a b, T a b = T' a b)
    (cov : CovIn) (i j : ℕ) :
    get_transformed_covariances nOut nIn T cov 0 i j =
      get_transformed_covariances nOut nIn T' cov 0 i j := by
  unfold get_transformed_covariances
  rw [if_neg (by norm_num), if_neg (by norm_num)]
  apply Finset.sum_congr rfl
  intro k _
  apply Finset.sum_congr rfl
  intro l _
  rw [hT i k, hT j l]

/-! ## Claim C4 -/

/-- C4: `simple_coadd` accumulates transformed flux, coverage and covariance
by sum (first order with default flags, later orders with
`preserve_normalization=True`) and divides flux by coverage with a zero guard.
Part 1: output pixels with exactly zero accumulated coverage get flux 0 (never
NaN — the guarded division divides by 1).  Part 2: for two identical orders on
the output grid with unit flux and unit variance, the output covariance is the
sum of the two transformed covariances (not their average), the output flux is
exactly 1, and the covariance equals twice the identity. -/
theorem claim_C4 :
    (∀ (o0 : OrderDat) (rest : List OrderDat) (nOut : ℕ) (outC : ℕ → ℚ),
      StrIncrOn outC nOut → 2 ≤ nOut →
      ∀ i, (simpleCoaddAcc o0 rest nOut outC).2.1 i = 0 →
        (simple_coadd (o0 :: rest) nOut outC).1 i = 0) ∧
    (∀ (n : ℕ) (c : ℕ → ℚ), StrIncrOn c n → 2 ≤ n →
      (∀ i j,
        (simple_coadd [⟨n, c, fun _ => 1, .vec (fun _ => 1)⟩,
          ⟨n, c, fun _ => 1, .vec (fun _ => 1)⟩] n c).2 i j =
          get_transformed_covariances n n
            (get_resampling_matrix n c n c none false true) (.vec (fun _ => 1)) 0 i j +
          get_transformed_covariances n n
            (get_resampling_matrix n c n c none true true) (.vec (fun _ => 1)) 0 i j) ∧
      (∀ i < n,
        (simple_coadd [⟨n, c, fun _ => 1, .vec (fun _ => 1)⟩,
          ⟨n, c, fun _ => 1, .vec (fun _ => 1)⟩] n c).1 i = 1) ∧
      (∀ i j, i < n → j < n →
        (simple_coadd [⟨n, c, fun _ => 1, .vec (fun _ => 1)⟩,
          ⟨n, c, fun _ => 1, .vec (fun _ => 1)⟩] n c).2 i j = if i = j then 2 else 0)) := by
  constructor
  · intro o0 rest nOut outC hout h2out i hcov
    obtain ⟨hf, hc⟩ := simpleCoaddAcc_sum o0 rest nOut outC i
    rw [hcov] at hc
    have hA : 0 ≤ matVec o0.n
        (get_resampling_matrix o0.n o0.wvs nOut outC none false true) (fun _ => 1) i := by
      rw [matVec_ones_eq_rowsum]
      exact box_matrix_rowsum_nonneg hout h2out i
    have hLnn : ∀ x ∈ rest.map (fun o =>
        matVec o.n (get_resampling_matrix o.n o.wvs nOut outC none true true)
          (fun _ => 1) i), 0 ≤ x := by
      intro x hx
      rcases List.mem_map.mp hx with ⟨o, ho, hv⟩
      rw [← hv, matVec_ones_eq_rowsum]
      exact box_matrix_rowsum_nonneg hout h2out i
    have hS : 0 ≤ (rest.map (fun o =>
        matVec o.n (get_resampling_matrix o.n o.wvs nOut outC none true true)
          (fun _ => 1) i)).sum := List.sum_nonneg hLnn
    have hA0 : matVec o0.n
        (get_resampling_matrix o0.n o0.wvs nOut outC none false true) (fun _ => 1) i = 0 := by
      linarith
    have hS0 : (rest.map (fun o =>
        matVec o.n (get_resampling_matrix o.n o.wvs nOut outC none true true)
          (fun _ => 1) i)).sum = 0 := by
      linarith
    have hT0row : ∀ j, get_resampling_matrix o0.n o0.wvs nOut outC none false true i j = 0 := by
      apply box_matrix_row_zero hout h2out
      rw [← matVec_ones_eq_rowsum]
      exact hA0
    have hnum : (simpleCoaddAcc o0 rest nOut outC).1 i = 0 := by
      rw [hf]
      have h1 : matVec o0.n
          (get_resampling_matrix o0.n o0.wvs nOut outC none false true) o0.flux i = 0 := by
        unfold matVec
        apply Finset.sum_eq_zero
        intro j _
        rw [hT0row j, zero_mul]
      have h2 : (rest.map (fun o =>
          matVec o.n (get_resampling_matrix o.n o.wvs nOut outC none true true)
            o.flux i)).sum = 0 := by
        apply List.sum_eq_zero
        intro x hx
        rcases List.mem_map.mp hx with ⟨o, ho, hv⟩
        have hcovo : matVec o.n
            (get_resampling_matrix o.n o.wvs nOut outC none true true) (fun _ => 1) i = 0 :=
          list_sum_nonneg_all_zero hLnn hS0 _ (List.mem_map.mpr ⟨o, ho, rfl⟩)
        have hrow : ∀ j, get_resampling_matrix o.n o.wvs nOut outC none true true i j = 0 := by
          apply box_matrix_row_zero hout h2out
          rw [← matVec_ones_eq_rowsum]
          exact hcovo
        rw [← hv]
        unfold matVec
        apply Finset.sum_eq_zero
        intro j _
        rw [hrow j, zero_mul]
      rw [h1, h2, add_zero]
    show (simpleCoaddAcc o0 rest nOut outC).1 i /
      ((simpleCoaddAcc o0 rest nOut outC).2.1 i +
        (if (simpleCoaddAcc o0 rest nOut outC).2.1 i = 0 then 1 else 0)) = 0
    rw [hnum, hcov, zero_div]
  · intro n c h h2
    have hT : ∀ (pn ue : Bool) (i j : ℕ), get_resampling_matrix n c n c none pn ue i j =
        if i = j ∧ i < n then 1 else 0 := fun pn ue => resample_identity h h2 pn ue
    refine ⟨fun i j => rfl, ?_, ?_⟩
    · intro i hi
      have hones : ∀ (pn ue : Bool),
          matVec n (get_resampling_matrix n c n c none pn ue) (fun _ => 1) i =
            if i < n then 1 else 0 := by
        intro pn ue
        rw [matVec_congr (hT pn ue) (fun _ => 1) i, matVec_identity]
      show (matVec n (get_resampling_matrix n c n c none false true) (fun _ => 1) i +
          matVec n (get_resampling_matrix n c n c none true true) (fun _ => 1) i) /
        ((matVec n (get_resampling_matrix n c n c none false true) (fun _ => 1) i +
          matVec n (get_resampling_matrix n c n c none true true) (fun _ => 1) i) +
          (if (matVec n (get_resampling_matrix n c n c none false true) (fun _ => 1) i +
            matVec n (get_resampling_matrix n c n c none true true) (fun _ => 1) i) = 0
           then 1 else 0)) = 1
      rw [hones false true, hones true true, if_pos hi]
      norm_num
    · intro i j hi hj
      have hcv : ∀ (pn ue : Bool),
          get_transformed_covariances n n (get_resampling_matrix n c n c none pn ue)
            (.vec (fun _ => 1)) 0 i j = if i = j ∧ i < n then 1 else 0 := by
        intro pn ue
        rw [covTrans_congr (fun a b => hT pn ue a b) (.vec (fun _ => 1)) i j,
          covTrans_identity]
      show get_transformed_covariances n n
          (get_resampling_matrix n c n c none false true) (.vec (fun _ => 1)) 0 i j +
        get_transformed_covariances n n
          (get_resampling_matrix n c n c none true true) (.vec (fun _ => 1)) 0 i j =
        if i = j then 2 else 0
      rw [hcv false true, hcv true true]
      by_cases hij : i = j
      · rw [if_pos ⟨hij, hi⟩, if_pos hij]
        norm_num
      · rw [if_neg (show ¬(i = j ∧ i < n) from fun hc => hij hc.1), if_neg hij]
        norm_num

theorem claim_C4_witness :
    StrIncrOn (fun k => (k : ℚ)) 2 ∧ (2 ≤ 2) ∧
      (simpleCoaddAcc ⟨2, fun k => (k : ℚ), fun _ => 1, .vec (fun _ => 1)⟩ [] 2
        (fun k => (k : ℚ))).2.1 5 = 0 ∧
      (simple_coadd [⟨2, fun k => (k : ℚ), fun _ => 1, .vec (fun _ => 1)⟩] 2
        (fun k => (k : ℚ))).1 5 = 0 ∧
      (simple_coadd [⟨2, fun k => (k : ℚ), fun _ => 1, .vec (fun _ => 1)⟩,
        ⟨2, fun k => (k : ℚ), fun _ => 1, .vec (fun _ => 1)⟩] 2 (fun k => (k : ℚ))).1 0 = 1 ∧
      (simple_coadd [⟨2, fun k => (k : ℚ), fun _ => 1, .vec (fun _ => 1)⟩,
        ⟨2, fun k => (k : ℚ), fun _ => 1, .vec (fun _ => 1)⟩] 2 (fun k => (k : ℚ))).2 0 0 = 2 := by
  have hs : StrIncrOn (fun k => (k : ℚ)) 2 := by
    intro k hk
    interval_cases k <;> norm_num
  have hcov5 : (simpleCoaddAcc ⟨2, fun k => (k : ℚ), fun _ => 1, .vec (fun _ => 1)⟩ [] 2
      (fun k => (k : ℚ))).2.1 5 = 0 := by
    show matVec 2 (get_resampling_matrix 2 (fun k => (k : ℚ)) 2 (fun k => (k : ℚ))
      none false true) (fun _ => 1) 5 = 0
    rw [matVec_congr (resample_identity hs (le_refl 2) false true) (fun _ => 1) 5,
      matVec_identity]
    norm_num
  refine ⟨hs, le_refl 2, hcov5, ?_, ?_, ?_⟩
  · exact claim_C4.1 ⟨2, fun k => (k : ℚ), fun _ => 1, .vec (fun _ => 1)⟩ [] 2
      (fun k => (k : ℚ)) hs (le_refl 2) 5 hcov5
  · exact (claim_C4.2 2 (fun k => (k : ℚ)) hs (le_refl 2)).2.1 0 (by norm_num)
  · have := (claim_C4.2 2 (fun k => (k : ℚ)) hs (le_refl 2)).2.2 0 0 (by norm_num) (by norm_num)
    rw [this]
    norm_num

/-! ## Claim C10: the curvature penalty annihilates constants -/

theorem curvature_row_split {npts i : ℕ} (hi : i < npts) :
    ∀ j < npts, get_curvature_matrix npts i j =
      (if j + 1 = i then (if j = npts - 2 then (1 : ℚ) else 1/2) else 0) +
      (if j = i then (-1 : ℚ) else 0) +
      (if j = i + 1 then (if j = 1 then (1 : ℚ) else 1/2) else 0) := by
  intro j hj
  unfold get_curvature_matrix
  rw [if_pos ⟨hi, hj⟩]
  split_ifs <;> first | (exfalso; omega) | ring

theorem curvature_row_sum {npts : ℕ} (h2 : 2 ≤ npts) :
    ∀ i < npts, ∑ j ∈ Finset.range npts, get_curvature_matrix npts i j = 0 := by
  intro i hi
  rw [Finset.sum_congr rfl (fun j hj => curvature_row_split hi j (Finset.mem_range.mp hj))]
  rw [Finset.sum_add_distrib, Finset.sum_add_distrib]
  have hB : ∑ j ∈ Finset.range npts, (if j = i then (-1 : ℚ) else 0) = -1 := by
    rw [Finset.sum_ite_eq' (Finset.range npts) i (fun _ => (-1 : ℚ))]
    rw [if_pos (Finset.mem_range.mpr hi)]
  have hC : ∑ j ∈ Finset.range npts, (if j = i + 1 then (if j = 1 then (1 : ℚ) else 1/2) else 0) =
      if i + 1 < npts then (if i + 1 = 1 then (1 : ℚ) else 1/2) else 0 := by
    rw [Finset.sum_ite_eq' (Finset.range npts) (i + 1)
      (fun j => if j = 1 then (1 : ℚ) else 1/2)]
    by_cases hin : i + 1 < npts
    · rw [if_pos (Finset.mem_range.mpr hin), if_pos hin]
    · rw [if_neg (fun hm => hin (Finset.mem_range.mp hm)), if_neg hin]
  rcases Nat.eq_zero_or_pos i with h0 | h1
  · subst h0
    have hA : ∑ j ∈ Finset.range npts, (if j + 1 = 0 then
        (if j = npts - 2 then (1 : ℚ) else 1/2) else 0) = 0 :=
      Finset.sum_eq_zero (fun j _ => if_neg (by omega))
    rw [hA, hB, hC, if_pos (by omega), if_pos rfl]
    ring
  · have hA : ∑ j ∈ Finset.range npts, (if j + 1 = i then
        (if j = npts - 2 then (1 : ℚ) else 1/2) else 0) =
        if i - 1 = npts - 2 then (1 : ℚ) else 1/2 := by
      rw [Finset.sum_congr rfl (fun j _ => if_congr (show (j + 1 = i) ↔ (j = i - 1) by omega)
        rfl rfl)]
      rw [Finset.sum_ite_eq' (Finset.range npts) (i - 1)
        (fun j => if j = npts - 2 then (1 : ℚ) else 1/2)]
      rw [if_pos (Finset.mem_range.mpr (by omega))]
    rw [hA, hB, hC]
    rcases Nat.lt_or_ge (i + 1) npts with hlt | hge
    · rw [if_pos hlt, if_neg (show ¬ i - 1 = npts - 2 by omega),
        if_neg (show ¬ i + 1 = 1 by omega)]
      ring
    · rw [if_neg (show ¬ i + 1 < npts by omega), if_pos (show i - 1 = npts - 2 by omega)]
      ring

/-- C10: every row of `get_curvature_matrix(npts)` (`npts ≥ 2`), including the
two boundary rows, sums to zero, so the damped curvature block (the rows
`damp * cmat` stacked under the normal equations in `coadd_data` and
`coadd_bolton_schlegel`) contributes exactly zero residual for a constant
output spectrum. -/
theorem claim_C10 (npts : ℕ) (h2 : 2 ≤ npts) :
    (∀ i < npts, ∑ j ∈ Finset.range npts, get_curvature_matrix npts i j = 0) ∧
    (∀ (damp a : ℚ), ∀ i < npts,
      ∑ j ∈ Finset.range npts, damp * get_curvature_matrix npts i j * a = 0) := by
  refine ⟨curvature_row_sum h2, ?_⟩
  intro damp a i hi
  have : ∀ j, damp * get_curvature_matrix npts i j * a =
      (damp * a) * get_curvature_matrix npts i j := by
    intro j
    ring
  rw [Finset.sum_congr rfl (fun j _ => this j), ← Finset.mul_sum,
    curvature_row_sum h2 i hi, mul_zero]

theorem claim_C10_witness :
    (2 ≤ 2) ∧ (∑ j ∈ Finset.range 2, get_curvature_matrix 2 0 j = 0) ∧
      (∑ j ∈ Finset.range 2, (3 : ℚ) * get_curvature_matrix 2 1 j * 7 = 0) :=
  ⟨le_refl 2, (claim_C10 2 (le_refl 2)).1 0 (by norm_num),
    (claim_C10 2 (le_refl 2)).2 3 7 1 (by norm_num)⟩

/-! ## Claim C6: `map_indicies` -/

/-- C6: for a strictly increasing target of length `n ≥ 2`, `map_indicies`
maps the target's own coordinates to exactly `[0, 1, …, n-1]`; a query
strictly below `target[0]` maps to `(q - target[0])/(target[1] - target[0])`,
and a query strictly above `target[n-1]` maps to
`(q - target[n-1])/(target[n-1] - target[n-2]) + (n-1)`. -/
theorem claim_C6 (n : ℕ) (t : ℕ → ℚ) (h : StrIncrOn t n) (h2 : 2 ≤ n) :
    (map_indicies ((List.range n).map t) n t = (List.range n).map (fun i : ℕ => (i : ℚ))) ∧
    (∀ q : ℚ, q < t 0 → map_indicies [q] n t = [(q - t 0) / (t 1 - t 0)]) ∧
    (∀ q : ℚ, t (n - 1) < q →
      map_indicies [q] n t =
        [(q - t (n - 1)) / (t (n - 1) - t (n - 2)) + ((n - 1 : ℕ) : ℚ)]) := by
  refine ⟨?_, ?_, ?_⟩
  · unfold map_indicies
    rw [List.map_map]
    apply List.map_congr_left
    intro i hi
    exact mapIndex_self h h2 (List.mem_range.mp hi)
  · intro q hq
    unfold map_indicies
    rw [List.map_singleton, mapIndex_below h h2 hq, one_div_mul_eq_div]
  · intro q hq
    unfold map_indicies
    rw [List.map_singleton, mapIndex_above h h2 hq, one_div_mul_eq_div]
    congr 1
    push_cast [Nat.cast_sub (show 1 ≤ n by omega)]
    ring

theorem claim_C6_witness :
    StrIncrOn (fun i => 2 * (i : ℚ)) 3 ∧ (2 ≤ 3) ∧
      map_indicies ((List.range 3).map (fun i => 2 * (i : ℚ))) 3 (fun i => 2 * (i : ℚ)) =
        (List.range 3).map (fun i : ℕ => (i : ℚ)) ∧
      map_indicies [-1] 3 (fun i => 2 * (i : ℚ)) = [(-1 - 0) / (2 - 0)] ∧
      map_indicies [5] 3 (fun i => 2 * (i : ℚ)) = [(5 - 4) / (4 - 2) + ((2 : ℕ) : ℚ)] := by
  have hs : StrIncrOn (fun i => 2 * (i : ℚ)) 3 := by
    intro i hi
    interval_cases i <;> norm_num
  refine ⟨hs, by norm_num, (claim_C6 3 _ hs (by norm_num)).1, ?_, ?_⟩
  · have := (claim_C6 3 _ hs (by norm_num)).2.1 (-1) (by norm_num)
    rw [this]
    norm_num
  · have := (claim_C6 3 _ hs (by norm_num)).2.2 5 (by norm_num)
    rw [this]
    norm_num

/-! ## Claim C7: `centers_to_bins` -/

theorem centers_to_bins_getD {cl : List ℚ} (hne : cl.length ≠ 0) {i : ℕ}
    (hi : i < cl.length + 1) :
    (centers_to_bins cl).getD i 0 = centersToBins cl.length (fun k => cl.getD k 0) i := by
  unfold centers_to_bins
  rw [if_neg hne]
  show (((List.range (cl.length + 1)).map
    (centersToBins cl.length (fun k => cl.getD k 0))).get? i).getD 0 = _
  rw [List.get?_map, List.get?_range hi]
  rfl

theorem centers_to_bins_length {cl : List ℚ} (hne : cl.length ≠ 0) :
    (centers_to_bins cl).length = cl.length + 1 := by
  unfold centers_to_bins
  rw [if_neg hne, List.length_map, List.length_range]

/-- C7: `centers_to_bins` maps an empty input to an empty output, and for
`N ≥ 2` strictly increasing centers returns `N + 1` strictly increasing
edges: interior edges are midpoints of adjacent centers, the two end edges
extrapolate the adjacent spacing, and each center lies strictly between its
bracketing edges. -/
theorem claim_C7 :
    (centers_to_bins [] = []) ∧
    ∀ (cl : List ℚ), StrIncrOn (fun i => cl.getD i 0) cl.length → 2 ≤ cl.length →
      (centers_to_bins cl).length = cl.length + 1 ∧
      (∀ i, i + 1 < cl.length + 1 →
        (centers_to_bins cl).getD i 0 < (centers_to_bins cl).getD (i + 1) 0) ∧
      (∀ i, 1 ≤ i → i ≤ cl.length - 1 →
        (centers_to_bins cl).getD i 0 = (cl.getD (i - 1) 0 + cl.getD i 0) / 2) ∧
      ((centers_to_bins cl).getD 0 0 = cl.getD 0 0 - (cl.getD 1 0 - cl.getD 0 0) / 2) ∧
      ((centers_to_bins cl).getD cl.length 0 =
        cl.getD (cl.length - 1) 0 +
          (cl.getD (cl.length - 1) 0 - cl.getD (cl.length - 2) 0) / 2) ∧
      (∀ i < cl.length,
        (centers_to_bins cl).getD i 0 < cl.getD i 0 ∧
          cl.getD i 0 < (centers_to_bins cl).getD (i + 1) 0) := by
  refine ⟨rfl, ?_⟩
  intro cl h h2
  have hne : cl.length ≠ 0 := by omega
  refine ⟨centers_to_bins_length hne, ?_, ?_, ?_, ?_, ?_⟩
  · intro i hi
    rw [centers_to_bins_getD hne (by omega), centers_to_bins_getD hne (by omega)]
    exact bins_strict h h2 i (by omega)
  · intro i h1 hi
    rw [centers_to_bins_getD hne (by omega), binsMid h2 h1 hi]
  · rw [centers_to_bins_getD hne (by omega), binsFirst h2]
  · rw [centers_to_bins_getD hne (by omega), binsLast h2]
  · intro i hi
    rw [centers_to_bins_getD hne (by omega), centers_to_bins_getD hne (by omega)]
    exact ⟨bins_lt_center h h2 i hi, center_lt_bins h h2 i hi⟩

theorem claim_C7_witness :
    StrIncrOn (fun i => ([0, 1] : List ℚ).getD i 0) ([0, 1] : List ℚ).length ∧
      (2 ≤ ([0, 1] : List ℚ).length) ∧
      (centers_to_bins ([0, 1] : List ℚ)).length = 3 ∧
      (centers_to_bins ([0, 1] : List ℚ)).getD 0 0 = -1/2 := by
  have hs : StrIncrOn (fun i => ([0, 1] : List ℚ).getD i 0) ([0, 1] : List ℚ).length := by
    intro i hi
    simp only [List.length_cons, List.length_nil] at hi
    interval_cases i <;> norm_num [List.getD]
  refine ⟨hs, by norm_num, ?_, ?_⟩
  · exact (claim_C7.2 [0, 1] hs (by norm_num)).1
  · rw [(claim_C7.2 [0, 1] hs (by norm_num)).2.2.2.1]
    norm_num [List.getD]

/-! ## Claim C5: Bolton-Schlegel diagonalization of an identity information
matrix -/

/-- C5: fed an identity information matrix (any orthonormal eigendecomposition
of the identity), the diagonalization step computed inside
`coadd_bolton_schlegel` (source lines 349-353) produces
`rotmat_no_norm = I`, a row-normalization vector of all ones, and `R = I`.
The standalone `Bolton_Schlegel_Diagonalization` contains the same arithmetic
but raises `TypeError` on every call (source line 279 calls the module
`np.linalg` as a function and lines 280-281 use the undefined names
`eigen_vals`/`eigen_vecs`), so only the in-`coadd` copy is executable. -/
theorem claim_C5 (n : ℕ) (evecs : Matrix (Fin n) (Fin n) ℝ) (evals : Fin n → ℝ)
    (horth : evecs.transpose * evecs = 1)
    (hdecomp : evecs * Matrix.diagonal evals * evecs.transpose = 1) :
    bsRotNoNorm n evecs evals = 1 ∧ bsRotNorm n evecs evals = (fun _ => 1) ∧
      bsRotmat n evecs evals = 1 := by
  have hQQt : evecs * evecs.transpose = 1 := Matrix.mul_eq_one_comm.mp horth
  have hD : Matrix.diagonal evals = (1 : Matrix (Fin n) (Fin n) ℝ) := by
    have h1 : (evecs.transpose * evecs) * Matrix.diagonal evals * (evecs.transpose * evecs) =
        evecs.transpose * (evecs * Matrix.diagonal evals * evecs.transpose) * evecs := by
      noncomm_ring
    rw [horth, hdecomp, one_mul, mul_one, mul_one] at h1
    rw [h1, horth]
  have hevals : ∀ k, evals k = 1 := by
    intro k
    have := congrFun (congrFun hD k) k
    rwa [Matrix.diagonal_apply_eq, Matrix.one_apply_eq] at this
  have hNoNorm : bsRotNoNorm n evecs evals = 1 := by
    funext i j
    unfold bsRotNoNorm
    have hterm : ∀ k, evecs i k * Real.sqrt (evals k) * evecs j k =
        evecs i k * evecs.transpose k j := by
      intro k
      rw [hevals k, Real.sqrt_one, mul_one, Matrix.transpose_apply]
    rw [Finset.sum_congr rfl (fun k _ => hterm k), ← Matrix.mul_apply, hQQt]
  have hNorm : bsRotNorm n evecs evals = (fun _ => 1) := by
    funext i
    unfold bsRotNorm
    rw [hNoNorm]
    have : ∀ j, (1 : Matrix (Fin n) (Fin n) ℝ) i j = if i = j then 1 else 0 :=
      fun j => Matrix.one_apply
    rw [Finset.sum_congr rfl (fun j _ => this j)]
    rw [Finset.sum_ite_eq Finset.univ i (fun _ => (1 : ℝ)), if_pos (Finset.mem_univ i)]
  refine ⟨hNoNorm, hNorm, ?_⟩
  funext i j
  unfold bsRotmat
  rw [hNoNorm, hNorm, div_one]

theorem claim_C5_witness :
    ((1 : Matrix (Fin 1) (Fin 1) ℝ).transpose * 1 = 1) ∧
    ((1 : Matrix (Fin 1) (Fin 1) ℝ) * Matrix.diagonal (fun _ => (1 : ℝ)) *
      (1 : Matrix (Fin 1) (Fin 1) ℝ).transpose = 1) ∧
    (bsRotNoNorm 1 1 (fun _ => 1) = 1 ∧ bsRotNorm 1 1 (fun _ => 1) = (fun _ => 1) ∧
      bsRotmat 1 1 (fun _ => 1) = 1) := by
  have h1 : (1 : Matrix (Fin 1) (Fin 1) ℝ).transpose * 1 = 1 := by
    rw [Matrix.transpose_one, one_mul]
  have h2 : (1 : Matrix (Fin 1) (Fin 1) ℝ) * Matrix.diagonal (fun _ => (1 : ℝ)) *
      (1 : Matrix (Fin 1) (Fin 1) ℝ).transpose = 1 := by
    rw [Matrix.diagonal_one, Matrix.transpose_one, one_mul, one_mul]
  exact ⟨h1, h2, claim_C5 1 1 (fun _ => 1) h1 h2⟩

/-! ## Claim C9: `coadd_data_broken` parameter validation

The error guard is unconditional.  The warning path, however, does not
complete on every input: the forced last block `(n_out - block_size, n_out)`
(source line 430) makes line 434 read `output_wvs[n_out - block_size]`,
which raises `IndexError` whenever the output grid is shorter than half a
block (in particular when it is empty), and a block shorter than
`block_size` raises `ValueError` at the `concat_data` assignment.
Completion is recovered under the range hypotheses those reads need:
`block_size ≤ n_out` and `block_overlap ≤ n_out % step_size`, so that every
block of the source's block list spans exactly `block_size` pixels. -/

/-- The length of a python slice. -/
theorem pySlice_length (l : List ℚ) (lo hi : ℤ) :
    (pySlice l lo hi).length =
      min (Int.toNat (if hi < 0 then hi + l.length else hi)) l.length -
      min (Int.toNat (if lo < 0 then lo + l.length else lo)) l.length := by
  unfold pySlice
  dsimp only
  rw [List.length_map, List.length_range]

/-- A monadic fold over `Except` returns `.ok` when every step does. -/
theorem foldlM_ok {α β : Type} (f : β → α → Except String β) :
    ∀ (l : List α), (∀ a ∈ l, ∀ b, ∃ c, f b a = .ok c) →
      ∀ b, ∃ r, l.foldlM f b = .ok r := by
  intro l
  induction l with
  | nil => intro _ b; exact ⟨b, rfl⟩
  | cons x xs ih =>
    intro h b
    obtain ⟨c, hc⟩ := h x (List.mem_cons_self x xs) b
    obtain ⟨r, hr⟩ := ih (fun a ha b2 => h a (List.mem_cons_of_mem x ha) b2) c
    refine ⟨r, ?_⟩
    rw [show (x :: xs).foldlM f b = f b x >>= fun s2 => xs.foldlM f s2 from rfl, hc]
    exact hr

theorem exists_ok_of_isOk {β : Type} {e : Except String β} (h : e.isOk = true) :
    ∃ r, e = .ok r := by
  cases e with
  | error s => exact absurd h (by simp [Except.toBool])
  | ok r => exact ⟨r, rfl⟩

/-- A block with `0 ≤ lo` and `hi = lo + block_size ≤ n_out` is processed
without raising, provided the per-order arrays are aligned, `2 ≤ block_size`
and `1 ≤ block_overlap`: the line-434 reads are in range, the block grid has
exactly `block_size ≥ 2` pixels (so neither `centers_to_bins` nor the
`concat_data` assignment raises) and the `output_alpha` writes are
non-degenerate. -/
theorem processBlock_isOk (ctx : BrokenCtx)
    (hal : ∀ oi < ctx.input_wvs.length,
      oi < ctx.input_fluxes.length ∧ oi < ctx.input_variances.length ∧
      (ctx.input_fluxes.getD oi []).length = (ctx.input_wvs.getD oi []).length ∧
      (ctx.input_variances.getD oi []).length = (ctx.input_wvs.getD oi []).length)
    (hbs : 2 ≤ ctx.block_size) (hov : 1 ≤ ctx.block_overlap)
    (lo hi : ℤ) (h0 : 0 ≤ lo) (h2 : hi = lo + ctx.block_size)
    (hn : hi ≤ (ctx.output_wvs.length : ℤ)) (acc : (ℕ → ℚ) × (ℕ → ℚ)) :
    (processBlock ctx acc (lo, hi)).isOk = true := by
  have hg1 : pyGetL ctx.output_wvs lo =
      some (ctx.output_wvs.getD (pyIndex ctx.output_wvs.length lo) 0) := by
    unfold pyGetL
    rw [if_pos ⟨by omega, by omega⟩]
  have hg2 : pyGetL ctx.output_wvs (hi - 1) =
      some (ctx.output_wvs.getD (pyIndex ctx.output_wvs.length (hi - 1)) 0) := by
    unfold pyGetL
    rw [if_pos ⟨by omega, by omega⟩]
  have hnb : (pySlice ctx.output_wvs lo hi).length = ctx.block_size := by
    rw [pySlice_length]
    rw [if_neg (by omega : ¬ hi < 0), if_neg (by omega : ¬ lo < 0)]
    omega
  unfold processBlock
  dsimp only
  rw [hg1, hg2]
  dsimp only
  split
  · rfl
  · split
    next hB1 => exfalso; omega
    next hB1 =>
      split
      next hB2 =>
        exact absurd (fun oi hoi => hal oi (List.mem_range.mp (List.mem_filter.mp hoi).1)) hB2
      next hB2 =>
        split
        next hB3 => exact absurd hnb hB3
        next hB3 =>
          split
          · split
            next hD => exfalso; omega
            next hD => rfl
          · rfl

/-- C9 (corrected): `block_overlap >= block_size` always rejects with the
explicit error and no output.  The warning path completes when, in addition
to `1 ≤ block_overlap ≤ 2 < block_size`, the per-order flux/variance arrays
are aligned with the wavelength arrays and
`block_size ≤ n_out` with `block_overlap ≤ n_out % step_size`, so that every
block of the block list spans exactly `block_size` output pixels; only the
warning is attached and the blockwise coadd returns an output vector. -/
theorem claim_C9 (ctx : BrokenCtx) :
    (ctx.block_size ≤ ctx.block_overlap →
      coadd_data_broken ctx = .error "coadd_error: overlap must be less than block size!") ∧
    (ctx.block_overlap < ctx.block_size → 1 ≤ ctx.block_overlap → ctx.block_overlap ≤ 2 →
      ctx.block_size ≤ ctx.output_wvs.length →
      ctx.block_overlap ≤ ctx.output_wvs.length % (ctx.block_size - ctx.block_overlap) →
      (∀ oi < ctx.input_wvs.length,
        oi < ctx.input_fluxes.length ∧ oi < ctx.input_variances.length ∧
        (ctx.input_fluxes.getD oi []).length = (ctx.input_wvs.getD oi []).length ∧
        (ctx.input_variances.getD oi []).length = (ctx.input_wvs.getD oi []).length) →
      ∃ out, coadd_data_broken ctx = .ok
        (["WARNING: block_overlap should be 3 or greater, smaller values give anomalous results"],
         out)) := by
  constructor
  · intro h
    unfold coadd_data_broken
    rw [if_pos h]
  · intro hlt hov1 hov2 hbn hmod hal
    have hmem : ∀ blk ∈ (((List.range
          (ctx.output_wvs.length / (ctx.block_size - ctx.block_overlap) + 1 - 1)).map
        (fun (bi : ℕ) =>
          ((((ctx.block_size - ctx.block_overlap) * bi : ℕ) : ℤ),
           ((min ctx.output_wvs.length
              ((ctx.block_size - ctx.block_overlap) * bi + ctx.block_size) : ℕ) : ℤ))))
      ++ [((ctx.output_wvs.length : ℤ) - ctx.block_size, (ctx.output_wvs.length : ℤ))]),
        ∀ acc, ∃ acc2, processBlock ctx acc blk = .ok acc2 := by
      intro blk hblk acc
      apply exists_ok_of_isOk
      rcases List.mem_append.mp hblk with hm | hm
      · obtain ⟨bi, hbi, rfl⟩ := List.mem_map.mp hm
        have hbi2 : bi < ctx.output_wvs.length / (ctx.block_size - ctx.block_overlap) := by
          have := List.mem_range.mp hbi
          omega
        have hdm := Nat.div_add_mod ctx.output_wvs.length (ctx.block_size - ctx.block_overlap)
        have hmul : (ctx.block_size - ctx.block_overlap) * bi +
              (ctx.block_size - ctx.block_overlap) ≤
            (ctx.block_size - ctx.block_overlap) *
              (ctx.output_wvs.length / (ctx.block_size - ctx.block_overlap)) := by
          calc (ctx.block_size - ctx.block_overlap) * bi + (ctx.block_size - ctx.block_overlap)
              = (ctx.block_size - ctx.block_overlap) * (bi + 1) := by ring
            _ ≤ _ := Nat.mul_le_mul_left _ (by omega)
        have hle : (ctx.block_size - ctx.block_overlap) * bi + ctx.block_size ≤
            ctx.output_wvs.length := by omega
        exact processBlock_isOk ctx hal (by omega) hov1 _ _
          (by positivity)
          (by rw [min_eq_right hle]; push_cast; ring)
          (by exact_mod_cast Nat.cast_le.mpr (min_le_left _ _)) acc
      · rw [List.mem_singleton] at hm
        subst hm
        exact processBlock_isOk ctx hal (by omega) hov1 _ _
          (by omega) (by omega) (by omega) acc
    obtain ⟨r, hr⟩ := foldlM_ok (processBlock ctx) _ hmem (fun _ => 0, fun _ => 0)
    unfold coadd_data_broken
    rw [if_neg (not_le.mpr hlt)]
    dsimp only
    rw [hr]
    dsimp only
    rw [if_pos hov2]
    exact ⟨_, rfl⟩

theorem claim_C9_witness :
    (10 ≤ 12) ∧ ((2 : ℕ) < 5 ∧ 1 ≤ 2 ∧ 2 ≤ 2 ∧ 5 ≤ 5 ∧ 2 ≤ 5 % (5 - 2)) ∧
    coadd_data_broken ⟨fun _ _ => fun _ _ => 0, fun _ _ _ _ => fun _ => 0,
      [], [], [], [], 10, 12, 0, true⟩ =
      .error "coadd_error: overlap must be less than block size!" ∧
    ∃ out, coadd_data_broken ⟨fun _ _ => fun _ _ => 0, fun _ _ _ _ => fun _ => 0,
      [], [], [], [0, 1, 2, 3, 4], 5, 2, 0, true⟩ =
      .ok
        (["WARNING: block_overlap should be 3 or greater, smaller values give anomalous results"],
         out) := by
  refine ⟨by norm_num, ⟨by norm_num, by norm_num, le_refl 2, by norm_num, by norm_num⟩, ?_, ?_⟩
  · exact (claim_C9 ⟨fun _ _ => fun _ _ => 0, fun _ _ _ _ => fun _ => 0,
      [], [], [], [], 10, 12, 0, true⟩).1 (by norm_num)
  · exact (claim_C9 ⟨fun _ _ => fun _ _ => 0, fun _ _ _ _ => fun _ => 0,
      [], [], [], [0, 1, 2, 3, 4], 5, 2, 0, true⟩).2 (by norm_num) (by norm_num) (le_refl 2)
      (by simp) (by norm_num) (by intro oi hoi; simp at hoi)

/-- C9 counterexample to the original completion conjunct: with an empty
output grid, `block_size = 5` and `block_overlap = 2` (so the overlap is
valid and the warning branch is taken), the forced last block is
`(0 - 5, 0)` and the read `output_wvs[-5]` at source line 434 raises
`IndexError`: the coadd aborts instead of proceeding to completion. -/
theorem claim_C9_counterexample :
    ((2 : ℕ) < 5) ∧ ((2 : ℕ) ≤ 2) ∧
    coadd_data_broken ⟨fun _ _ => fun _ _ => 0, fun _ _ _ _ => fun _ => 0,
      [], [], [], [], 5, 2, 0, true⟩ = .error "IndexError" := by
  exact ⟨by norm_num, le_refl 2, rfl⟩

/-! ## Claim C8: the table Gaussian CDF -/

/-- The standard normal CDF is everywhere strictly below 1: the tail mass
above any point is positive. -/
theorem stdGaussCDF_lt_one (x : ℝ) : stdGaussCDF x < 1 := by
  have hint : MeasureTheory.Integrable (ProbabilityTheory.gaussianPDFReal 0 1) :=
    ProbabilityTheory.integrable_gaussianPDFReal 0 1
  have htot : ∫ t, ProbabilityTheory.gaussianPDFReal 0 1 t = 1 :=
    ProbabilityTheory.integral_gaussianPDFReal_eq_one 0 one_ne_zero
  have hsplit : (∫ t in Set.Iic x, ProbabilityTheory.gaussianPDFReal 0 1 t) +
      (∫ t in (Set.Iic x)ᶜ, ProbabilityTheory.gaussianPDFReal 0 1 t) =
      ∫ t, ProbabilityTheory.gaussianPDFReal 0 1 t :=
    MeasureTheory.integral_add_compl measurableSet_Iic hint
  have hpos : 0 < ∫ t in (Set.Iic x)ᶜ, ProbabilityTheory.gaussianPDFReal 0 1 t := by
    rw [Set.compl_Iic]
    rw [MeasureTheory.setIntegral_pos_iff_support_of_nonneg_ae
      (MeasureTheory.ae_of_all _ (fun t => ProbabilityTheory.gaussianPDFReal_nonneg 0 1 t))
      hint.integrableOn]
    have hsupp : Function.support (ProbabilityTheory.gaussianPDFReal 0 1) = Set.univ :=
      Set.eq_univ_of_forall
        (fun t => ne_of_gt (ProbabilityTheory.gaussianPDFReal_pos 0 1 t one_ne_zero))
    rw [hsupp, Set.univ_inter, Real.volume_Ioi]
    norm_num
  unfold stdGaussCDF
  linarith

/-- C8, counterexample: at z-score `5.99` (inside `[-6, 6]`) the code clips to
exactly `1.0` — the clip threshold is `max_z - z_delta - 1e-5 ≈ 5.98826`, not
`6` — while the claimed table interpolation is strictly below 1, so the two
disagree. -/
theorem claim_C8_counterexample :
    approximate_gaussian_cdf (599/100) = 1 ∧ gaussSpecF (599/100) < 1 ∧
      gaussSpecF (599/100) ≠ approximate_gaussian_cdf (599/100) := by
  have h1 : approximate_gaussian_cdf (599/100) = 1 := by
    unfold approximate_gaussian_cdf
    rw [if_pos (by norm_num [zDelta])]
  have hfloor : ⌊((599/100 : ℚ) - (-6)) / zDelta⌋ = 1022 := by
    rw [show ((599/100 : ℚ) - (-6)) / zDelta = 1226577/1200 by norm_num [zDelta]]
    rw [Int.floor_eq_iff]
    norm_num
  have h2 : gaussSpecF (599/100) < 1 := by
    unfold gaussSpecF
    rw [if_neg (by norm_num), if_neg (by norm_num)]
    dsimp only
    rw [hfloor, show Int.toNat 1022 = 1022 from rfl]
    have hv1 : cdf_vals 1022 < 1 := stdGaussCDF_lt_one _
    have hv2 : cdf_vals (1022 + 1) < 1 := stdGaussCDF_lt_one _
    have hα : ((((599/100 : ℚ) - (-6)) / zDelta - ((1022 : ℕ) : ℚ) : ℚ) : ℝ) =
        (59 : ℝ)/400 := by
      have hq : (((599/100 : ℚ) - (-6)) / zDelta - ((1022 : ℕ) : ℚ)) = 59/400 := by
        norm_num [zDelta]
      rw [hq]
      norm_num
    rw [hα]
    nlinarith
  exact ⟨h1, h2, by rw [h1]; exact ne_of_lt h2⟩

/-- C8, amended: the Gaussian density's cumulative integral is the table CDF
of the z-score `(coord - center)/σ`; the table CDF clips to exactly 0 below
`z = -6` and to exactly `1.0` for every `z` above `max_z - z_delta - 1e-5`
(≈ 5.98826, strictly below 6 — not 6 as the claim states), and agrees with
the claimed adjacent-entry linear interpolation on `[-6, max_z - z_delta - 1e-5]`. -/
theorem claim_C8 :
    (∀ (centers widths : ℕ → ℚ) (index : ℕ) (coord : ℚ),
      gaussianDensityIntegral centers widths index coord =
        approximate_gaussian_cdf ((coord - centers index) / widths index)) ∧
    (∀ z : ℚ, z < -6 → approximate_gaussian_cdf z = 0) ∧
    (∀ z : ℚ, ¬ z < -6 → ¬ z > 6 - zDelta - 1/100000 →
      approximate_gaussian_cdf z = gaussSpecF z) ∧
    (∀ z : ℚ, z > 6 - zDelta - 1/100000 → approximate_gaussian_cdf z = 1) := by
  refine ⟨fun centers widths index coord => rfl, ?_, ?_, ?_⟩
  · intro z hz
    unfold approximate_gaussian_cdf
    rw [if_neg (by rw [not_lt] at *; norm_num [zDelta] at *; linarith), if_pos hz]
  · intro z h1 h2
    unfold approximate_gaussian_cdf gaussSpecF
    rw [if_neg h2, if_neg h1, if_neg h1, if_neg (show ¬ z > 6 by
      rw [not_lt] at h2 ⊢
      norm_num [zDelta] at h2
      linarith)]
  · intro z hz
    unfold approximate_gaussian_cdf
    rw [if_pos hz]

theorem claim_C8_witness :
    ((-7 : ℚ) < -6) ∧ (¬ (0 : ℚ) < -6) ∧ (¬ (0 : ℚ) > 6 - zDelta - 1/100000) ∧
      ((599/100 : ℚ) > 6 - zDelta - 1/100000) ∧
      approximate_gaussian_cdf (-7) = 0 ∧
      approximate_gaussian_cdf 0 = gaussSpecF 0 ∧
      approximate_gaussian_cdf (599/100) = 1 := by
  refine ⟨by norm_num, by norm_num, by norm_num [zDelta], by norm_num [zDelta], ?_, ?_, ?_⟩
  · exact claim_C8.2.1 (-7) (by norm_num)
  · exact claim_C8.2.2.1 0 (by norm_num) (by norm_num [zDelta])
  · exact claim_C8.2.2.2 (599/100) (by norm_num [zDelta])

end Resampling
